import Mathlib

/-!
# Verification of the AMATERASU survival-analysis engine (`survival.py`)

Shallow embedding of the statistical engine in `src/survival.py`:

* `calculate_logrank`  — multi-group log-rank test (lines 10–53);
* `find_optimal_threshold` — cut-point search (lines 55–73);
* the Kaplan–Meier survival-curve computation inside
  `generate_survival_plot` (lines 93–109);
* the Benjamini–Hochberg correction applied to the gene scan
  (line 252, `statsmodels.stats.multitest.multipletests(method='fdr_bh')`,
  modelled from the spec since statsmodels is not part of the repository);
* the scan driver `survival` (variable loop lines 143–213, gene loop
  lines 228–259).

Conventions of the embedding:

* machine floats are modelled by exact rationals `ℚ`; `numpy` true
  division becomes field division on `ℚ` (with Lean's `x / 0 = 0`
  convention, relevant only at the one divide-by-zero site analysed for
  claim C2);
* `numpy` boolean-mask counting (`sum(mask & ...)`) becomes
  `List.filter` + `length`;
* `np.unique` (sorted distinct values) becomes insertion sort of `dedup`;
* `np.linalg.solve`, which raises `LinAlgError` exactly on a singular
  matrix, becomes an `Option`-valued exact solver (Cramer's rule);
* `scipy.stats.chi2.sf`, a transcendental special function, is an
  abstract parameter `sf : ℚ → ℕ → ℚ` of the engine: every theorem is
  proved for an arbitrary survival function, and the p-value returned by
  the code is exactly `sf` applied to the statistic and the degrees of
  freedom;
* group labels are modelled as rationals (the code only requires an
  ordered, equality-comparable label type for `np.unique`).
-/

/-- The type of the abstract chi-square survival function
`scipy.stats.chi2.sf` (statistic, degrees of freedom ↦ upper-tail
probability). -/
def SF : Type := ℚ → ℕ → ℚ

/-- One observation: a row of the parallel arrays
`(durations, events, groups)` passed to `calculate_logrank`. -/
structure Obs where
  duration : ℚ
  event : ℚ
  group : ℚ
deriving DecidableEq, Repr

/-- `np.unique`: the sorted list of distinct values of a list. -/
def uniqueSorted (l : List ℚ) : List ℚ :=
  List.insertionSort (· ≤ ·) l.dedup

/-- Zip the three parallel arrays `durations, events, groups` into a
list of observations (the arrays are used pointwise by the source). -/
def logrankObs (durations events groups : List ℚ) : List Obs :=
  (durations.zip (events.zip groups)).map (fun x => ⟨x.1, x.2.1, x.2.2⟩)

/-- `unique_times = np.unique(durations[events == 1])` (line 11). -/
def eventTimes (data : List Obs) : List ℚ :=
  uniqueSorted ((data.filter (fun o => o.event = 1)).map Obs.duration)

/-- `unique_groups = np.unique(groups)` (line 12). -/
def groupLabels (data : List Obs) : List ℚ :=
  uniqueSorted (data.map Obs.group)

/-- `n_events = sum((durations == t) & (events == 1))` (lines 22–23). -/
def nEventsAt (data : List Obs) (t : ℚ) : ℕ :=
  (data.filter (fun o => o.duration = t ∧ o.event = 1)).length

/-- `n_at_risk = sum(durations >= t)` (lines 21, 24). -/
def nAtRiskAt (data : List Obs) (t : ℚ) : ℕ :=
  (data.filter (fun o => t ≤ o.duration)).length

/-- `n_group_at_risk = sum(at_risk & mask)` for group `g` (lines 29–30). -/
def nGroupAtRisk (data : List Obs) (g t : ℚ) : ℕ :=
  (data.filter (fun o => o.group = g ∧ t ≤ o.duration)).length

/-- `observed = sum(events_at_t & mask)` for group `g` (line 31). -/
def observedAt (data : List Obs) (g t : ℚ) : ℕ :=
  (data.filter (fun o => o.group = g ∧ o.duration = t ∧ o.event = 1)).length

/-- The event times that survive the skip guard
`if n_events == 0 or n_at_risk == 0: continue` (lines 25–26).
Only these times contribute to `O_E` and `V`. -/
def filteredTimes (data : List Obs) : List ℚ :=
  (eventTimes data).filter
    (fun t => ¬(nEventsAt data t = 0 ∨ nAtRiskAt data t = 0))

/-- The hypergeometric variance factor
`n_events * (n_at_risk - n_events) / (n_at_risk * n_at_risk * (n_at_risk - 1))`
(line 35). -/
def factorAt (data : List Obs) (t : ℚ) : ℚ :=
  ((nEventsAt data t : ℚ) * ((nAtRiskAt data t : ℚ) - (nEventsAt data t : ℚ))) /
    ((nAtRiskAt data t : ℚ) * (nAtRiskAt data t : ℚ) * ((nAtRiskAt data t : ℚ) - 1))

/-- Accumulated `O_E[i] += observed - expected` for the group labelled `g`
(lines 32–33), summed over the non-skipped event times. -/
def oMinusE (data : List Obs) (g : ℚ) : ℚ :=
  ((filteredTimes data).map (fun t =>
    (observedAt data g t : ℚ) -
      (nEventsAt data t : ℚ) * (nGroupAtRisk data g t : ℚ) / (nAtRiskAt data t : ℚ))).sum

/-- Accumulated entry `V[i, j]` of the variance-covariance matrix for the
groups labelled `g` (row) and `g'` (column): diagonal term
`n_group_at_risk * (n_at_risk - n_group_at_risk) * factor`, off-diagonal
term `-n_group_at_risk * n_j_at_risk * factor` (lines 36–42). -/
def vEntry (data : List Obs) (g g' : ℚ) : ℚ :=
  ((filteredTimes data).map (fun t =>
    if g = g' then
      (nGroupAtRisk data g t : ℚ) * ((nAtRiskAt data t : ℚ) - (nGroupAtRisk data g t : ℚ)) *
        factorAt data t
    else
      -(nGroupAtRisk data g t : ℚ) * (nGroupAtRisk data g' t : ℚ) * factorAt data t)).sum

/-- Number of groups `n_groups = len(unique_groups)` (line 13). -/
def nGroups (data : List Obs) : ℕ := (groupLabels data).length

/-- `O_E = O_E[:-1]` (line 45): the observed-minus-expected vector with
the last group's entry dropped. -/
def OEred (data : List Obs) : Fin (nGroups data - 1) → ℚ :=
  fun i => oMinusE data ((groupLabels data).getD i 0)

/-- `V = V[:-1, :-1]` (line 46): the variance-covariance matrix with the
last group's row and column dropped. -/
def Vred (data : List Obs) : Matrix (Fin (nGroups data - 1)) (Fin (nGroups data - 1)) ℚ :=
  Matrix.of fun i j =>
    vEntry data ((groupLabels data).getD i 0) ((groupLabels data).getD j 0)

/-- Exact model of `np.linalg.solve(A, b)` (line 48): raises
(`none`) precisely when the matrix is singular, otherwise returns the
unique solution, here via Cramer's rule. -/
def npSolve {n : ℕ} (A : Matrix (Fin n) (Fin n) ℚ) (b : Fin n → ℚ) :
    Option (Fin n → ℚ) :=
  if A.det = 0 then none
  else some (fun i => (A.updateColumn i b).det / A.det)

/-- The core of `calculate_logrank` on the zipped observation list:
`chi2 = np.dot(O_E, np.linalg.solve(V, O_E))`, p-value
`stats.chi2.sf(chi2, df)` with `df = n_groups - 1`, and the
`except np.linalg.LinAlgError: return 0, 1` fallback (lines 44–53). -/
def logrankOf (sf : SF) (data : List Obs) : ℚ × ℚ :=
  match npSolve (Vred data) (OEred data) with
  | none => (0, 1)
  | some x =>
    let chi2 := Finset.univ.sum (fun i => OEred data i * x i)
    (chi2, sf chi2 (nGroups data - 1))

/-- `calculate_logrank(durations, events, groups)` (lines 10–53),
parametrised by the abstract chi-square survival function `sf`. -/
def calculate_logrank (sf : SF) (durations events groups : List ℚ) : ℚ × ℚ :=
  logrankOf sf (logrankObs durations events groups)

/-! ## Optimal threshold search (`find_optimal_threshold`, lines 55–73) -/

/-- `np.percentile(values, q)` with the default linear interpolation:
virtual index `h = (n-1)*q/100` into the sorted copy, result
`s[⌊h⌋] + (h - ⌊h⌋) * (s[⌈h⌉] - s[⌊h⌋])`. -/
def percentile (values : List ℚ) (q : ℚ) : ℚ :=
  let s := List.insertionSort (· ≤ ·) values
  let h : ℚ := ((s.length : ℚ) - 1) * q / 100
  s.getD (⌊h⌋).toNat 0 + (h - ⌊h⌋) * (s.getD (⌈h⌉).toNat 0 - s.getD (⌊h⌋).toNat 0)

/-- `np.median(values)`: the middle value of a sorted copy (odd length),
or the average of the two middle values (even length). -/
def median (values : List ℚ) : ℚ :=
  let s := List.insertionSort (· ≤ ·) values
  if s.length % 2 = 1 then s.getD (s.length / 2) 0
  else (s.getD (s.length / 2 - 1) 0 + s.getD (s.length / 2) 0) / 2

/-- `groups = (values > threshold).astype(int)` (line 64). -/
def thresholdGroups (values : List ℚ) (threshold : ℚ) : List ℚ :=
  values.map (fun v => if threshold < v then 1 else 0)

/-- The candidate thresholds
`np.percentile(values, np.arange(20, 81, 1))` (line 59): the 20th through
80th percentiles stepped by one percentile point. -/
def fotCandidates (values : List ℚ) : List ℚ :=
  (List.range 61).map (fun (i : ℕ) => percentile values (20 + (i : ℚ)))

/-- `find_optimal_threshold(values, durations, events)` (lines 55–73).
The accumulator models `(min_p_value, optimal_threshold)`, with `none`
standing for the initial `float('inf')`. -/
def find_optimal_threshold (sf : SF) (values durations events : List ℚ) : ℚ :=
  if values.length < 3 then median values
  else
    ((fotCandidates values).foldl
      (fun acc threshold =>
        let groups := thresholdGroups values threshold
        if (uniqueSorted groups).length < 2 then acc
        else
          let p := (calculate_logrank sf durations events groups).2
          match acc.1 with
          | none => (some p, threshold)
          | some m => if p < m then (some p, threshold) else acc)
      ((none : Option ℚ), median values)).2

/-- The log-rank p-value of the split at candidate `t` (used by the
spec-side description of the scan, C4). -/
def fotP (sf : SF) (values durations events : List ℚ) (t : ℚ) : ℚ :=
  (calculate_logrank sf durations events (thresholdGroups values t)).2

/-- Whether candidate `t` splits the values into two non-empty groups
(C4): candidates failing this are skipped. -/
def fotValid (values : List ℚ) (t : ℚ) : Bool :=
  !((uniqueSorted (thresholdGroups values t)).length < 2 : Bool)

/-- The body of the candidate loop, abstracted over the p-value function
and the validity test (C4). -/
def fotStep (f : ℚ → ℚ) (valid : ℚ → Bool) (acc : Option ℚ × ℚ) (t : ℚ) :
    Option ℚ × ℚ :=
  if valid t then
    match acc.1 with
    | none => (some (f t), t)
    | some m => if f t < m then (some (f t), t) else acc
  else acc

/-- Spec-side scan (C4): the minimal `f`-value over the valid candidates
together with the *first* candidate attaining it (ties go to the earlier
candidate). -/
def firstMinBy (f : ℚ → ℚ) (valid : ℚ → Bool) : List ℚ → Option (ℚ × ℚ)
  | [] => none
  | t :: ts =>
    if valid t then
      match firstMinBy f valid ts with
      | none => some (f t, t)
      | some (m, u) => if f t ≤ m then some (f t, t) else some (m, u)
    else firstMinBy f valid ts

/-! ## Kaplan–Meier curve (`generate_survival_plot`, lines 82–118)

Only the numerical curve computation is embedded (the `matplotlib`
rendering is I/O).  Observations of one group are pairs
`(duration, event)`; the event indicator is used through Python
truthiness (`if event_sorted[idx]:`), i.e. `event ≠ 0`.
`np.argsort` is modelled by a stable insertion sort on durations (the
source's introsort is some duration-sorted permutation; ties between
same-duration observations are applied in an unspecified order there). -/

/-- State of the survival-curve loop: the not-yet-consumed sorted
observations, the running survival probability (the value that
`survival[j:] *=` maintains), the `at_risk` counter, the accumulated
`(time, survival)` steps, and the censoring markers
`(censored_times, censored_survivals)`. -/
structure KMState where
  rem : List (ℚ × ℚ)
  surv : ℚ
  atRisk : ℕ
  steps : List (ℚ × ℚ)
  markers : List (ℚ × ℚ)
deriving DecidableEq, Repr

/-- The inner `while idx < len and duration_sorted[idx] <= t` loop body
(lines 102–109) folded over one bucket of observations. -/
def kmFold (sPrev : ℚ) (acc : ℚ × ℕ × List (ℚ × ℚ)) (ob : ℚ × ℚ) :
    ℚ × ℕ × List (ℚ × ℚ) :=
  if ob.2 ≠ 0 then
    (acc.1 * (((acc.2.1 : ℚ) - 1) / (acc.2.1 : ℚ)), acc.2.1 - 1, acc.2.2)
  else
    (acc.1, acc.2.1 - 1, acc.2.2 ++ [(ob.1, sPrev)])

/-- One iteration `j` of the outer `for j, t in enumerate(unique_times[1:], 1)`
loop (line 101): consume the observations with duration `≤ t`, update the
survival probability and `at_risk`, emit the step `(t, survival[j])`. -/
def kmStep (st : KMState) (t : ℚ) : KMState :=
  let bucket := st.rem.takeWhile (fun ob => ob.1 ≤ t)
  let folded := bucket.foldl (kmFold st.surv) (st.surv, st.atRisk, st.markers)
  { rem := st.rem.dropWhile (fun ob => ob.1 ≤ t),
    surv := folded.1,
    atRisk := folded.2.1,
    steps := st.steps ++ [(t, folded.1)],
    markers := folded.2.2 }

/-- The survival-curve computation for one group (lines 87–109):
sort by duration, build `unique_times = np.unique(np.append(0, durs))`,
start with survival 1 and `at_risk = len(duration_sorted)`, and walk the
times from index 1 on. -/
def kmCurve (durs evs : List ℚ) : KMState :=
  let obs := List.insertionSort (fun a b => a.1 ≤ b.1) (durs.zip evs)
  match uniqueSorted (0 :: durs) with
  | [] => ⟨obs, 1, durs.length, [], []⟩
  | t0 :: rest => rest.foldl kmStep ⟨obs, 1, durs.length, [(t0, 1)], []⟩

/-- The group mask of `generate_survival_plot` (lines 83–85): the
`(duration, event)` rows of the observations in group `g`. -/
def groupPairs (durations events groups : List ℚ) (g : ℚ) : List (ℚ × ℚ) :=
  (((durations.zip events).zip groups).filter (fun x => x.2 = g)).map Prod.fst

/-- The per-group slice of `generate_survival_plot` (lines 82–85): select
the observations of group `g` and run the curve computation on them. -/
def groupCurve (durations events groups : List ℚ) (g : ℚ) : KMState :=
  kmCurve ((groupPairs durations events groups g).map Prod.fst)
    ((groupPairs durations events groups g).map Prod.snd)

/-- The `(survival, at_risk)` projection of the inner loop body: the
markers do not feed back into the survival recursion, so the fold over a
bucket acts on `(survival, at_risk)` alone through this step. -/
def kmSA (acc : ℚ × ℕ) (ob : ℚ × ℚ) : ℚ × ℕ :=
  if ob.2 ≠ 0 then (acc.1 * (((acc.2 : ℚ) - 1) / (acc.2 : ℚ)), acc.2 - 1)
  else (acc.1, acc.2 - 1)

/-- Claim-side notion (C6): the last time at which an event occurred in a
group's observations (0 when there is no event). -/
def lastEventTime (pairs : List (ℚ × ℚ)) : ℚ :=
  (((pairs.filter (fun ob => ob.2 ≠ 0)).map Prod.fst).maximum).unbot' 0

/-- Claim-side notion (C6): the number of subjects that never had an
event at or before time `T`. -/
def neverEventCount (pairs : List (ℚ × ℚ)) (T : ℚ) : ℕ :=
  (pairs.filter (fun ob => ¬(ob.2 ≠ 0 ∧ ob.1 ≤ T))).length

instance : IsTotal (ℚ × ℚ) (fun a b => a.1 ≤ b.1) :=
  ⟨fun a b => le_total a.1 b.1⟩

instance : IsTrans (ℚ × ℚ) (fun a b => a.1 ≤ b.1) :=
  ⟨fun _ _ _ hab hbc => le_trans hab hbc⟩

/-! ## Benjamini–Hochberg correction

Modelled from the spec: `statsmodels.stats.multitest.multipletests`
(`method='fdr_bh'`, line 252) is not part of this repository, so the
procedure is taken from the spec's words: "sort ascending, compute
adjusted_i = p_i × n / rank_i, enforce monotonicity by taking the
running minimum from the largest rank down to the smallest, clip to
[0,1], then restore original ordering."  The restore step looks each raw
p-value up at its first position in the sorted list; tied raw p-values
receive equal adjusted values under the running minimum, so this agrees
with any argsort-based restore. -/

/-- Running minimum from the right: `suffixMins l` has at position `i`
the minimum of `l` from position `i` on. -/
def suffixMins : List ℚ → List ℚ
  | [] => []
  | p :: ps =>
    match suffixMins ps with
    | [] => [p]
    | q :: qs => min p q :: q :: qs

/-- The adjusted p-values in sorted order: `p_i * n / rank_i`, running
minimum from the largest rank down, clipped to `[0, 1]`. -/
def bhAdjustSorted (ps : List ℚ) : List ℚ :=
  (suffixMins (ps.enum.map (fun x => x.2 * (ps.length : ℚ) / ((x.1 : ℚ) + 1)))).map
    (fun p => max 0 (min 1 p))

/-- `multipletests(pvals, method='fdr_bh')` adjusted p-values, in the
original order of `ps`. -/
def multipletests_fdr_bh (ps : List ℚ) : List ℚ :=
  let sorted := List.insertionSort (· ≤ ·) ps
  let adj := bhAdjustSorted sorted
  ps.map (fun p => adj.getD (sorted.indexOf p) 0)

/-! ## The scan driver (`survival`, lines 130–259)

The file I/O (CSV reading/writing, plotting, progress printing) is out
of scope; the embedded driver takes the already-loaded columns.  Missing
or non-coercible values (`pd.to_numeric(..., errors='coerce')` / `isna`)
are modelled as `none`.  A printed `[Warning] ...` line is modelled by
appending the message to a warning list.  Every direct call of
`calculate_logrank` made by the driver records the number of distinct
groups it was invoked with in `logrankGroupCounts` (instrumentation used
to state that the driver never calls the test with fewer than two
groups). -/

/-- A metadata or gene column: numeric dtype or categorical.  Category
labels are modelled as rationals (the code only needs an ordered,
equality-comparable label type). -/
inductive Column where
  | numeric (vals : List (Option ℚ))
  | categorical (vals : List (Option ℚ))
deriving DecidableEq

/-- The input table of the driver: time column, event column, metadata
columns and gene columns (split at `START_GENE` by the source). -/
structure VarTable where
  durations : List (Option ℚ)
  events : List (Option ℚ)
  metaCols : List (String × Column)
  geneCols : List (String × Column)

/-- One row of `survival_variables.csv` (lines 180–186 / 207–212). -/
structure VariableResult where
  varName : String
  varType : String
  threshold : Option ℚ
  df : ℕ
  p_value : ℚ
deriving DecidableEq

/-- Accumulated state of the variable loop: collected results, printed
`[Warning]` lines, and the instrumented group counts of the driver's
`calculate_logrank` calls. -/
structure ScanState where
  results : List VariableResult
  warnings : List String
  logrankGroupCounts : List ℕ
deriving DecidableEq

/-- The missingness mask (lines 155–160): keep the rows where duration,
event and the variable's value are all present. -/
def cleanRows (durations events vals : List (Option ℚ)) : List (ℚ × ℚ × ℚ) :=
  ((durations.zip events).zip vals).filterMap (fun x =>
    match x.1.1, x.1.2, x.2 with
    | some d, some e, some v => some (d, e, v)
    | _, _, _ => none)

/-- `column in metadata.columns` / `column in gene_data.columns`. -/
def lookupCol (cols : List (String × Column)) (name : String) : Option Column :=
  (cols.find? (fun c => c.1 = name)).map Prod.snd

/-- One iteration of the variable loop (lines 143–213): resolve the
column (metadata first, then genes, then the `GENES` sentinel, else a
warning), mask missing rows, and run the numerical (lines 163–187) or
categorical (lines 190–213) analysis, skipping the variable when the
partition has fewer than 2 distinct groups. -/
def processVariable (sf : SF) (t : VarTable) (st : ScanState) (name : String) :
    ScanState :=
  match (lookupCol t.metaCols name).orElse (fun _ => lookupCol t.geneCols name) with
  | none =>
    if name = "GENES" then st
    else { st with warnings := st.warnings ++ ["[Warning] Column " ++ name ++ " not found"] }
  | some (Column.numeric vals) =>
    let rows := cleanRows t.durations t.events vals
    let durs := rows.map (fun r => r.1)
    let evs := rows.map (fun r => r.2.1)
    let values := rows.map (fun r => r.2.2)
    let threshold := find_optimal_threshold sf values durs evs
    let groups := thresholdGroups values threshold
    if (uniqueSorted groups).length < 2 then st
    else
      { st with
        results := st.results ++
          [⟨name, "numerical", some threshold, 1,
            (calculate_logrank sf durs evs groups).2⟩],
        logrankGroupCounts := st.logrankGroupCounts ++ [(uniqueSorted groups).length] }
  | some (Column.categorical vals) =>
    let rows := cleanRows t.durations t.events vals
    let durs := rows.map (fun r => r.1)
    let evs := rows.map (fun r => r.2.1)
    let groups := rows.map (fun r => r.2.2)
    if (uniqueSorted groups).length < 2 then st
    else
      { st with
        results := st.results ++
          [⟨name, "categorical", none, (uniqueSorted groups).length - 1,
            (calculate_logrank sf durs evs groups).2⟩],
        logrankGroupCounts := st.logrankGroupCounts ++ [(uniqueSorted groups).length] }

/-- The variable loop of `survival` over the requested columns. -/
def analyzeVariables (sf : SF) (t : VarTable) (names : List String) : ScanState :=
  names.foldl (processVariable sf t) ⟨[], [], []⟩

/-- One row of `survival_genes.csv` before correction (lines 243–247). -/
structure GeneResult where
  gene : String
  threshold : ℚ
  p_value : ℚ
deriving DecidableEq

/-- One iteration of the gene loop (lines 228–248): mask missing rows,
partition at `np.percentile(values, 50)`, skip the gene entirely when
the partition has fewer than 2 distinct groups, otherwise collect a
`GeneResult`. -/
def processGene (sf : SF) (durations events : List (Option ℚ))
    (g : String × List (Option ℚ)) : Option GeneResult :=
  let rows := cleanRows durations events g.2
  let durs := rows.map (fun r => r.1)
  let evs := rows.map (fun r => r.2.1)
  let values := rows.map (fun r => r.2.2)
  let threshold := percentile values 50
  let groups := thresholdGroups values threshold
  if (uniqueSorted groups).length < 2 then none
  else some ⟨g.1, threshold, (calculate_logrank sf durs evs groups).2⟩

/-- The gene scan (lines 228–259): collect the retained `GeneResult`s,
adjust their p-values with Benjamini–Hochberg, sort ascending by raw
p-value, and count the genes with adjusted p-value < 0.05.  Returns the
sorted `(result, adjusted p)` rows and the significant count. -/
def analyzeGenes (sf : SF) (durations events : List (Option ℚ))
    (genes : List (String × List (Option ℚ))) : List (GeneResult × ℚ) × ℕ :=
  let rs := genes.filterMap (processGene sf durations events)
  let paired := rs.zip (multipletests_fdr_bh (rs.map GeneResult.p_value))
  let sorted := List.insertionSort (fun a b => a.1.p_value ≤ b.1.p_value) paired
  (sorted, (sorted.filter (fun x => x.2 < 1/20)).length)

/-! ## Named inputs and spec-side formulations used by the claim theorems -/

/-- The C2 failing input: `durations=[1,2], events=[1,1], groups=[0,1]`.
At `t = 2` the only subject still at risk is the one with duration 2. -/
def c2data : List Obs := logrankObs [1, 2] [1, 1] [0, 1]

/-- A concrete survival function used to instantiate witnesses. -/
def sfW : SF := fun _ _ => 1/2

/-- Spec-side observed-minus-expected accumulation (for C1): sum over
*all* distinct event times, ascending, of
`observed_i - n_events * n_group_at_risk / n_at_risk`. -/
def oMinusE_spec (data : List Obs) (g : ℚ) : ℚ :=
  ((eventTimes data).map (fun t =>
    (observedAt data g t : ℚ) -
      (nEventsAt data t : ℚ) * (nGroupAtRisk data g t : ℚ) / (nAtRiskAt data t : ℚ))).sum

/-- Spec-side variance-covariance entry (for C1): sum over all distinct
event times of the hypergeometric-factor terms. -/
def vEntry_spec (data : List Obs) (g g' : ℚ) : ℚ :=
  ((eventTimes data).map (fun t =>
    if g = g' then
      (nGroupAtRisk data g t : ℚ) * ((nAtRiskAt data t : ℚ) - (nGroupAtRisk data g t : ℚ)) *
        factorAt data t
    else
      -(nGroupAtRisk data g t : ℚ) * (nGroupAtRisk data g' t : ℚ) * factorAt data t)).sum

/-- Spec-side log-rank test (for C1), written directly from the spec's
words: accumulate `O−E` and `V` over the ascending distinct event times,
drop the last group's row and column, solve `V·x = (O−E)`, return the
statistic `(O−E)·x` and the upper-tail chi-square probability at
`groups − 1` degrees of freedom. -/
def logrank_spec (sf : SF) (data : List Obs) : ℚ × ℚ :=
  let OE : Fin (nGroups data - 1) → ℚ :=
    fun i => oMinusE_spec data ((groupLabels data).getD i 0)
  let V : Matrix (Fin (nGroups data - 1)) (Fin (nGroups data - 1)) ℚ :=
    Matrix.of fun i j =>
      vEntry_spec data ((groupLabels data).getD i 0) ((groupLabels data).getD j 0)
  match npSolve V OE with
  | none => (0, 1)
  | some x =>
    let chi2 := Finset.univ.sum (fun i => OE i * x i)
    (chi2, sf chi2 (nGroups data - 1))

/-- The adjusted p-values arranged by raw p-value *descending* (the
arrangement named by C5's monotonicity clause). -/
def bhDescOutputs (ps : List ℚ) : List ℚ :=
  (List.insertionSort (fun a b : ℚ × ℚ => b.1 ≤ a.1)
    (ps.zip (multipletests_fdr_bh ps))).map Prod.snd

/-- The partition a resolved column induces after masking (C7): for a
numerical column the `value > optimal-threshold` split, for a categorical
column the cleaned labels themselves. -/
def columnGroups (sf : SF) (t : VarTable) : Column → List ℚ
  | Column.numeric vals =>
    thresholdGroups ((cleanRows t.durations t.events vals).map (fun r => r.2.2))
      (find_optimal_threshold sf
        ((cleanRows t.durations t.events vals).map (fun r => r.2.2))
        ((cleanRows t.durations t.events vals).map (fun r => r.1))
        ((cleanRows t.durations t.events vals).map (fun r => r.2.1)))
  | Column.categorical vals =>
    (cleanRows t.durations t.events vals).map (fun r => r.2.2)

/-- Claim-side predicate (C7): the named column resolves, and after
masking its partition has fewer than 2 distinct groups. -/
def degenerateColumn (sf : SF) (t : VarTable) (name : String) : Prop :=
  ∃ col, (lookupCol t.metaCols name).orElse (fun _ => lookupCol t.geneCols name)
      = some col ∧
    (uniqueSorted (columnGroups sf t col)).length < 2

/-- A concrete single-variable table whose only column has one group
(all labels equal): used against C7's "a warning is surfaced". -/
def t7 : VarTable :=
  ⟨[some 1, some 2], [some 1, some 1],
    [("G", Column.categorical [some 0, some 0])], []⟩

instance : IsTotal (GeneResult × ℚ) (fun a b => a.1.p_value ≤ b.1.p_value) :=
  ⟨fun a b => le_total _ _⟩

instance : IsTrans (GeneResult × ℚ) (fun a b => a.1.p_value ≤ b.1.p_value) :=
  ⟨fun _ _ _ hab hbc => le_trans hab hbc⟩

/-- The retained gene row of the concrete C9 witness input. -/
def geneWitnessResult : GeneResult :=
  ⟨"A", percentile [1, 2] 50,
    (calculate_logrank sfW [1, 2] [1, 1]
      (thresholdGroups [1, 2] (percentile [1, 2] 50))).2⟩

/-- Relabelling of one observation's group by `π` (C8): the claim's
"permutation of the group identifiers" applied pointwise. -/
def relabelObs (π : ℚ → ℚ) (o : Obs) : Obs :=
  ⟨o.duration, o.event, π o.group⟩

/-- The tail of `calculate_logrank` as a function of the sorted label
list and the accumulated per-label statistics: drop the last label, build
the reduced `V` and `O−E`, solve, take the dot product and the p-value.
`logrankOf` is definitionally `logrankCore` applied to `groupLabels`,
`oMinusE` and `vEntry`; stating it this way lets congruence arguments
avoid dependent rewriting under `Fin (nGroups data - 1)`. -/
def logrankCore (sf : SF) (L : List ℚ) (r : ℚ → ℚ) (W : ℚ → ℚ → ℚ) : ℚ × ℚ :=
  match npSolve (Matrix.of fun i j : Fin (L.length - 1) => W (L.getD i 0) (L.getD j 0))
      (fun i : Fin (L.length - 1) => r (L.getD i 0)) with
  | none => (0, 1)
  | some x =>
    let chi2 := Finset.univ.sum
      (fun i : Fin (L.length - 1) => r (L.getD i 0) * x i)
    (chi2, sf chi2 (L.length - 1))

/-! ## Basic properties of `uniqueSorted` (`np.unique`) -/

theorem uniqueSorted_perm_dedup (l : List ℚ) : (uniqueSorted l).Perm l.dedup :=
  List.perm_insertionSort _ _

theorem uniqueSorted_sorted (l : List ℚ) : List.Sorted (· ≤ ·) (uniqueSorted l) :=
  List.sorted_insertionSort _ _

theorem uniqueSorted_nodup (l : List ℚ) : (uniqueSorted l).Nodup :=
  ((uniqueSorted_perm_dedup l).nodup_iff).mpr (List.nodup_dedup l)

theorem mem_uniqueSorted {a : ℚ} {l : List ℚ} : a ∈ uniqueSorted l ↔ a ∈ l := by
  rw [(uniqueSorted_perm_dedup l).mem_iff, List.mem_dedup]

theorem uniqueSorted_sorted_lt (l : List ℚ) : List.Sorted (· < ·) (uniqueSorted l) := by
  have h := ((uniqueSorted_sorted l).and (uniqueSorted_nodup l) :
    List.Pairwise (fun a b => a ≤ b ∧ a ≠ b) (uniqueSorted l))
  exact h.imp (fun hab => lt_of_le_of_ne hab.1 hab.2)

theorem uniqueSorted_congr {l l' : List ℚ} (h : l.Perm l') :
    uniqueSorted l = uniqueSorted l' :=
  List.eq_of_perm_of_sorted
    ((uniqueSorted_perm_dedup l).trans (h.dedup.trans (uniqueSorted_perm_dedup l').symm))
    (uniqueSorted_sorted l) (uniqueSorted_sorted l')

/-! ## C2: the skip guard does not cover `n_at_risk == 1`

The guard at line 25 of `survival.py` is
`if n_events == 0 or n_at_risk == 0: continue`.  A distinct event time
always has at least one event and one subject at risk, so the guard never
fires; in particular a time at which exactly one subject is at risk is
processed, and the variance factor divides by
`n_at_risk * n_at_risk * (n_at_risk - 1) = 0` there (in the floating
point source this produces `0/0 = NaN` with a runtime warning, which then
propagates into `V`, the statistic and the p-value). -/



/-- C2: the claim fails on the code.  At the failing input the event time
`2` passes the code's skip guard (it is *not* skipped) although the
aggregate at-risk count is 1, and the denominator of the variance factor
at that time is `1 * 1 * (1 - 1) = 0`: the division by
`(at_risk_overall - 1) = 0` *is* performed. -/
theorem c2_time_with_one_at_risk_not_skipped :
    2 ∈ filteredTimes c2data ∧ nAtRiskAt c2data 2 = 1 ∧
      (nAtRiskAt c2data 2 : ℚ) * (nAtRiskAt c2data 2 : ℚ) *
        ((nAtRiskAt c2data 2 : ℚ) - 1) = 0 := by
  refine ⟨by decide, rfl, ?_⟩
  have h : nAtRiskAt c2data 2 = 1 := rfl
  rw [h]
  norm_num

/-! ## C3: singular variance matrix ⇒ fallback `(0, 1)` -/

/-- C3: whenever the accumulated (reduced) variance-covariance matrix is
singular — exactly the condition under which `np.linalg.solve` raises
`LinAlgError` — `calculate_logrank` returns statistic 0 and p-value 1
instead of failing (lines 47–51). -/
theorem logrank_singular_fallback (sf : SF) (durations events groups : List ℚ)
    (h : (Vred (logrankObs durations events groups)).det = 0) :
    calculate_logrank sf durations events groups = (0, 1) := by
  unfold calculate_logrank logrankOf npSolve
  rw [if_pos h]



/-- Witness for C3: on `durations=[1,1], events=[1,1], groups=[0,1]` both
events are tied at the single event time, the per-time factor is
`2*(2-2)/(2*2*1) = 0`, hence `V = 0` is singular and the code returns
`(0, 1)`. -/
theorem logrank_singular_fallback_witness :
    (Vred (logrankObs [1, 1] [1, 1] [0, 1])).det = 0 ∧
      calculate_logrank sfW [1, 1] [1, 1] [0, 1] = (0, 1) := by
  have hdet : (Vred (logrankObs [1, 1] [1, 1] [0, 1])).det = 0 := by
    show Matrix.det (n := Fin 1) (Vred (logrankObs [1, 1] [1, 1] [0, 1])) = 0
    rw [Matrix.det_fin_one]
    show vEntry (logrankObs [1, 1] [1, 1] [0, 1])
      ((groupLabels (logrankObs [1, 1] [1, 1] [0, 1])).getD 0 0)
      ((groupLabels (logrankObs [1, 1] [1, 1] [0, 1])).getD 0 0) = 0
    norm_num [vEntry, factorAt, filteredTimes, eventTimes, groupLabels, uniqueSorted,
      logrankObs, List.insertionSort, List.orderedInsert, List.filter, List.dedup,
      observedAt, nEventsAt, nGroupAtRisk, nAtRiskAt]
  exact ⟨hdet, logrank_singular_fallback sfW _ _ _ hdet⟩

/-! ## C1: `calculate_logrank` implements the spec's algorithm

The spec describes the iteration as running over "the distinct times with
at least one event in ascending order" with no further guard; the code
additionally carries the skip guard of line 25.  The guard is dead code —
a distinct event time always has at least one event and at least one
subject at risk — so both formulations agree. -/

theorem exists_event_of_mem_eventTimes {data : List Obs} {t : ℚ}
    (h : t ∈ eventTimes data) :
    ∃ o ∈ data, o.event = 1 ∧ o.duration = t := by
  rw [eventTimes, mem_uniqueSorted] at h
  obtain ⟨o, ho, hdur⟩ := List.mem_map.mp h
  rw [List.mem_filter] at ho
  exact ⟨o, ho.1, by simpa using ho.2, hdur⟩

theorem nEventsAt_pos_of_mem {data : List Obs} {t : ℚ}
    (h : t ∈ eventTimes data) : 0 < nEventsAt data t := by
  obtain ⟨o, ho, hev, hdur⟩ := exists_event_of_mem_eventTimes h
  exact List.length_pos_of_mem (List.mem_filter.mpr ⟨ho, by simp [hdur, hev]⟩)

theorem nAtRiskAt_pos_of_mem {data : List Obs} {t : ℚ}
    (h : t ∈ eventTimes data) : 0 < nAtRiskAt data t := by
  obtain ⟨o, ho, _, hdur⟩ := exists_event_of_mem_eventTimes h
  exact List.length_pos_of_mem (List.mem_filter.mpr ⟨ho, by simp [hdur]⟩)

/-- The skip guard of line 25 is vacuous: no distinct event time is
skipped. -/
theorem filteredTimes_eq_eventTimes (data : List Obs) :
    filteredTimes data = eventTimes data := by
  rw [filteredTimes, List.filter_eq_self]
  intro t ht
  have h1 := nEventsAt_pos_of_mem ht
  have h2 := nAtRiskAt_pos_of_mem ht
  simp only [decide_eq_true_eq]
  omega







theorem oMinusE_eq_spec (data : List Obs) (g : ℚ) :
    oMinusE data g = oMinusE_spec data g := by
  rw [oMinusE, oMinusE_spec, filteredTimes_eq_eventTimes]

theorem vEntry_eq_spec (data : List Obs) (g g' : ℚ) :
    vEntry data g g' = vEntry_spec data g g' := by
  rw [vEntry, vEntry_spec, filteredTimes_eq_eventTimes]

theorem logrankOf_eq_spec (sf : SF) (data : List Obs) :
    logrankOf sf data = logrank_spec sf data := by
  have hOE : OEred data =
      (fun i : Fin (nGroups data - 1) =>
        oMinusE_spec data ((groupLabels data).getD i 0)) := by
    funext i
    rw [OEred, oMinusE_eq_spec]
  have hV : Vred data = Matrix.of (fun i j : Fin (nGroups data - 1) =>
      vEntry_spec data ((groupLabels data).getD i 0) ((groupLabels data).getD j 0)) := by
    ext i j
    exact vEntry_eq_spec data _ _
  rw [logrankOf, logrank_spec, hOE, hV]

/-- C1: on any input with at least 2 distinct groups, `calculate_logrank`
computes exactly the spec's algorithm (ascending distinct event times
with at least one event each; the stated `O−E`, diagonal and off-diagonal
accumulation formulas; last group dropped; `V·x = O−E` solved; statistic
`(O−E)·x`; p-value `sf statistic (groups−1)`), and the iterated list of
distinct event times is strictly ascending. -/
theorem calculate_logrank_meets_spec (sf : SF) (durations events groups : List ℚ)
    (h : 2 ≤ nGroups (logrankObs durations events groups)) :
    calculate_logrank sf durations events groups
        = logrank_spec sf (logrankObs durations events groups) ∧
      List.Sorted (· < ·) (eventTimes (logrankObs durations events groups)) :=
  ⟨logrankOf_eq_spec sf _, uniqueSorted_sorted_lt _⟩

/-- Witness for C1 at the spec's concrete scenario
`durations = [5,6,6,2,4]`, `events = [1,0,1,1,1]`, `groups = [0,0,1,1,1]`. -/
theorem calculate_logrank_meets_spec_witness :
    2 ≤ nGroups (logrankObs [5, 6, 6, 2, 4] [1, 0, 1, 1, 1] [0, 0, 1, 1, 1]) ∧
      calculate_logrank sfW [5, 6, 6, 2, 4] [1, 0, 1, 1, 1] [0, 0, 1, 1, 1]
        = logrank_spec sfW (logrankObs [5, 6, 6, 2, 4] [1, 0, 1, 1, 1] [0, 0, 1, 1, 1]) :=
  ⟨by decide, (calculate_logrank_meets_spec sfW _ _ _ (by decide)).1⟩

/-! ## C5: properties of the Benjamini–Hochberg correction -/

theorem suffixMins_length (l : List ℚ) : (suffixMins l).length = l.length := by
  induction l with
  | nil => rfl
  | cons p ps ih =>
    rw [suffixMins]
    cases h : suffixMins ps with
    | nil =>
      rw [h] at ih
      simp only [List.length_nil] at ih
      simp [← ih]
    | cons q qs =>
      rw [h] at ih
      simp only [List.length_cons] at ih ⊢
      omega

theorem suffixMins_tail (p : ℚ) (ps : List ℚ) :
    (suffixMins (p :: ps)).tail = suffixMins ps := by
  rw [suffixMins]
  cases h : suffixMins ps with
  | nil => rfl
  | cons q qs => rfl

theorem suffixMins_sorted (l : List ℚ) : List.Sorted (· ≤ ·) (suffixMins l) := by
  induction l with
  | nil => exact List.sorted_nil
  | cons p ps ih =>
    rw [suffixMins]
    cases h : suffixMins ps with
    | nil => simp
    | cons q qs =>
      rw [h] at ih
      rw [List.sorted_cons]
      refine ⟨?_, ih⟩
      intro b hb
      rcases List.mem_cons.mp hb with rfl | hb
      · exact min_le_right _ _
      · exact le_trans (min_le_right _ _) ((List.sorted_cons.mp ih).1 b hb)

theorem sorted_getD_mono {l : List ℚ} (hs : List.Sorted (· ≤ ·) l)
    {i j : ℕ} (hij : i ≤ j) (hj : j < l.length) :
    l.getD i 0 ≤ l.getD j 0 := by
  rcases eq_or_lt_of_le hij with rfl | hlt
  · exact le_refl _
  · rw [List.getD_eq_getElem l 0 (lt_of_le_of_lt hij hj), List.getD_eq_getElem l 0 hj]
    exact List.pairwise_iff_get.mp hs ⟨i, lt_of_le_of_lt hij hj⟩ ⟨j, hj⟩ hlt

theorem suffixMins_le (l : List ℚ) :
    ∀ i k : ℕ, i ≤ k → k < l.length → (suffixMins l).getD i 0 ≤ l.getD k 0 := by
  induction l with
  | nil => intro i k _ hk; simp at hk
  | cons p ps ih =>
    intro i k hik hk
    match i, k with
    | 0, 0 =>
      rw [suffixMins]
      cases h : suffixMins ps with
      | nil => simp
      | cons q qs => simp
    | 0, (k' + 1) =>
      have hk' : k' < ps.length := by simpa using hk
      rw [suffixMins]
      cases h : suffixMins ps with
      | nil =>
        have : ps.length = 0 := by
          have := suffixMins_length ps
          rw [h] at this
          simpa using this.symm
        omega
      | cons q qs =>
        have hq := ih 0 k' (Nat.zero_le _) hk'
        rw [h] at hq
        simp only [List.getD_cons_zero, List.getD_cons_succ] at hq ⊢
        exact le_trans (min_le_right p q) hq
    | (i' + 1), (k' + 1) =>
      have h1 : (suffixMins (p :: ps)).getD (i' + 1) 0
          = (suffixMins ps).getD i' 0 := by
        rw [← suffixMins_tail p ps]
        cases h : suffixMins (p :: ps) with
        | nil =>
          have := suffixMins_length (p :: ps)
          rw [h] at this
          simp at this
        | cons q qs => simp
      rw [h1, List.getD_cons_succ]
      exact ih i' k' (by omega) (by simpa using hk)

theorem le_suffixMins (l : List ℚ) :
    ∀ (i : ℕ) (b : ℚ), i < l.length →
      (∀ k, i ≤ k → k < l.length → b ≤ l.getD k 0) →
      b ≤ (suffixMins l).getD i 0 := by
  induction l with
  | nil => intro i b hi; simp at hi
  | cons p ps ih =>
    intro i b hi hb
    match i with
    | 0 =>
      rw [suffixMins]
      cases h : suffixMins ps with
      | nil =>
        simpa using hb 0 (le_refl _) (by simp)
      | cons q qs =>
        simp only [List.getD_cons_zero, le_min_iff]
        constructor
        · simpa using hb 0 (le_refl _) (by simp)
        · have hps : 0 < ps.length := by
            have := suffixMins_length ps
            rw [h] at this
            simp at this
            omega
          have := ih 0 b hps (fun k _ hk => by
            simpa using hb (k + 1) (by omega) (by simpa using hk))
          rw [h] at this
          simpa using this
    | (i' + 1) =>
      have h1 : (suffixMins (p :: ps)).getD (i' + 1) 0
          = (suffixMins ps).getD i' 0 := by
        rw [← suffixMins_tail p ps]
        cases h : suffixMins (p :: ps) with
        | nil =>
          have := suffixMins_length (p :: ps)
          rw [h] at this
          simp at this
        | cons q qs => simp
      rw [h1]
      exact ih i' b (by simpa using hi)
        (fun k hk hk' => by simpa using hb (k + 1) (by omega) (by simpa using hk'))

theorem bhRaw_getD (ps : List ℚ) (k : ℕ) (hk : k < ps.length) :
    (ps.enum.map (fun x => x.2 * (ps.length : ℚ) / ((x.1 : ℚ) + 1))).getD k 0
      = ps.getD k 0 * (ps.length : ℚ) / ((k : ℚ) + 1) := by
  have hk' : k < (ps.enum.map
      (fun x => x.2 * (ps.length : ℚ) / ((x.1 : ℚ) + 1))).length := by
    simpa [List.enum_length] using hk
  have hke : k < ps.enum.length := by simpa [List.enum_length] using hk
  rw [List.getD_eq_getElem _ _ hk', List.getElem_map, List.getElem_enum,
    List.getD_eq_getElem _ _ hk]

theorem bhAdjustSorted_length (ps : List ℚ) :
    (bhAdjustSorted ps).length = ps.length := by
  rw [bhAdjustSorted, List.length_map, suffixMins_length, List.length_map,
    List.enum_length]

theorem bhAdjustSorted_getD (ps : List ℚ) (k : ℕ) (hk : k < ps.length) :
    (bhAdjustSorted ps).getD k 0 =
      max 0 (min 1 ((suffixMins (ps.enum.map
        (fun x => x.2 * (ps.length : ℚ) / ((x.1 : ℚ) + 1)))).getD k 0)) := by
  rw [bhAdjustSorted]
  have hlen : k < (suffixMins (ps.enum.map
      (fun x => x.2 * (ps.length : ℚ) / ((x.1 : ℚ) + 1)))).length := by
    rw [suffixMins_length, List.length_map, List.enum_length]
    exact hk
  rw [List.getD_eq_getElem _ _ (by simpa using hlen), List.getElem_map,
    ← List.getD_eq_getElem _ _ hlen]

theorem bhAdjustSorted_ge_of_sorted (ps : List ℚ) (hs : List.Sorted (· ≤ ·) ps)
    (h01 : ∀ p ∈ ps, 0 ≤ p ∧ p ≤ 1) (pos : ℕ) (hpos : pos < ps.length) :
    ps.getD pos 0 ≤ (bhAdjustSorted ps).getD pos 0 := by
  have hp01 : 0 ≤ ps.getD pos 0 ∧ ps.getD pos 0 ≤ 1 := by
    refine h01 _ ?_
    rw [List.getD_eq_getElem _ _ hpos]
    exact List.getElem_mem _
  have hrawlen : (ps.enum.map
      (fun x => x.2 * (ps.length : ℚ) / ((x.1 : ℚ) + 1))).length = ps.length := by
    rw [List.length_map, List.enum_length]
  have hmin : ps.getD pos 0 ≤ (suffixMins (ps.enum.map
      (fun x => x.2 * (ps.length : ℚ) / ((x.1 : ℚ) + 1)))).getD pos 0 := by
    apply le_suffixMins _ pos _ (by rw [hrawlen]; exact hpos)
    intro k hk hk'
    rw [hrawlen] at hk'
    rw [bhRaw_getD ps k hk']
    have h1 : ps.getD pos 0 ≤ ps.getD k 0 := sorted_getD_mono hs hk hk'
    have h2 : 0 ≤ ps.getD k 0 := by
      refine (h01 _ ?_).1
      rw [List.getD_eq_getElem _ _ hk']
      exact List.getElem_mem _
    have h3 : (k : ℚ) + 1 ≤ (ps.length : ℚ) := by exact_mod_cast hk'
    have h4 : ps.getD k 0 ≤ ps.getD k 0 * (ps.length : ℚ) / ((k : ℚ) + 1) := by
      rw [le_div_iff (by positivity)]
      calc ps.getD k 0 * ((k : ℚ) + 1)
          ≤ ps.getD k 0 * (ps.length : ℚ) := mul_le_mul_of_nonneg_left h3 h2
        _ = ps.getD k 0 * (ps.length : ℚ) := rfl
    exact le_trans h1 h4
  rw [bhAdjustSorted_getD ps pos hpos]
  exact le_trans (le_min hp01.2 hmin) (le_max_right 0 _)

theorem bhAdjustSorted_mono_pos (ps : List ℚ) (p1 p2 : ℕ) (h12 : p1 ≤ p2)
    (h2 : p2 < ps.length) :
    (bhAdjustSorted ps).getD p1 0 ≤ (bhAdjustSorted ps).getD p2 0 := by
  rw [bhAdjustSorted_getD ps p1 (lt_of_le_of_lt h12 h2), bhAdjustSorted_getD ps p2 h2]
  have hmono : (suffixMins (ps.enum.map
      (fun x => x.2 * (ps.length : ℚ) / ((x.1 : ℚ) + 1)))).getD p1 0
      ≤ (suffixMins (ps.enum.map
        (fun x => x.2 * (ps.length : ℚ) / ((x.1 : ℚ) + 1)))).getD p2 0 := by
    refine sorted_getD_mono (suffixMins_sorted _) h12 ?_
    rw [suffixMins_length, List.length_map, List.enum_length]
    exact h2
  exact max_le_max (le_refl 0) (min_le_min (le_refl 1) hmono)

theorem indexOf_mono_of_sorted {l : List ℚ} (hs : List.Sorted (· ≤ ·) l)
    {a b : ℚ} (ha : a ∈ l) (hb : b ∈ l) (hab : a ≤ b) :
    l.indexOf a ≤ l.indexOf b := by
  by_contra hcon
  push_neg at hcon
  have hia := List.indexOf_lt_length.mpr ha
  have hib := List.indexOf_lt_length.mpr hb
  have hba : b ≤ a := by
    have h := sorted_getD_mono hs (le_of_lt hcon) hia
    rw [List.getD_eq_getElem _ _ hib, List.getD_eq_getElem _ _ hia,
      List.getElem_indexOf, List.getElem_indexOf] at h
    exact h
  have heq : a = b := le_antisymm hab hba
  rw [heq] at hcon
  exact lt_irrefl _ hcon

theorem bh_result_getD (ps : List ℚ) (i : ℕ) (hi : i < ps.length) :
    (multipletests_fdr_bh ps).getD i 0 =
      (bhAdjustSorted (List.insertionSort (· ≤ ·) ps)).getD
        ((List.insertionSort (· ≤ ·) ps).indexOf (ps.getD i 0)) 0 := by
  simp only [multipletests_fdr_bh]
  have hi' : i < (ps.map (fun p =>
      (bhAdjustSorted (List.insertionSort (· ≤ ·) ps)).getD
        ((List.insertionSort (· ≤ ·) ps).indexOf p) 0)).length := by
    simpa using hi
  rw [List.getD_eq_getElem _ _ hi', List.getElem_map, List.getD_eq_getElem _ _ hi]

/-- C5, amended: over raw p-values in `[0,1]`, the Benjamini–Hochberg
adjusted p-values (sort ascending, `p·n/rank`, running minimum from the
largest rank down, clip, restore order — as modelled from the spec) are
elementwise at least the raw p-values, and are monotone in the raw
p-values: whenever `p_i ≤ p_j` the adjusted values satisfy
`adj_i ≤ adj_j` (i.e. the output is non-decreasing when sorted by raw
p-value *ascending*). -/
theorem multipletests_fdr_bh_props (ps : List ℚ)
    (h01 : ∀ p ∈ ps, 0 ≤ p ∧ p ≤ 1) :
    (∀ i, i < ps.length → ps.getD i 0 ≤ (multipletests_fdr_bh ps).getD i 0) ∧
      (∀ i j, i < ps.length → j < ps.length → ps.getD i 0 ≤ ps.getD j 0 →
        (multipletests_fdr_bh ps).getD i 0 ≤ (multipletests_fdr_bh ps).getD j 0) := by
  have hperm : (List.insertionSort (· ≤ ·) ps).Perm ps := List.perm_insertionSort _ _
  have hs : List.Sorted (· ≤ ·) (List.insertionSort (· ≤ ·) ps) :=
    List.sorted_insertionSort _ _
  have hlen : (List.insertionSort (· ≤ ·) ps).length = ps.length := hperm.length_eq
  have h01' : ∀ p ∈ List.insertionSort (· ≤ ·) ps, 0 ≤ p ∧ p ≤ 1 :=
    fun p hp => h01 p (hperm.mem_iff.mp hp)
  have hmem : ∀ i, i < ps.length → ps.getD i 0 ∈ List.insertionSort (· ≤ ·) ps := by
    intro i hi
    rw [hperm.mem_iff, List.getD_eq_getElem _ _ hi]
    exact List.getElem_mem _
  constructor
  · intro i hi
    rw [bh_result_getD ps i hi]
    have hpos : (List.insertionSort (· ≤ ·) ps).indexOf (ps.getD i 0)
        < (List.insertionSort (· ≤ ·) ps).length :=
      List.indexOf_lt_length.mpr (hmem i hi)
    have h := bhAdjustSorted_ge_of_sorted _ hs h01' _ hpos
    rwa [List.getD_eq_getElem _ _ hpos, List.getElem_indexOf] at h
  · intro i j hi hj hij
    rw [bh_result_getD ps i hi, bh_result_getD ps j hj]
    have hposj : (List.insertionSort (· ≤ ·) ps).indexOf (ps.getD j 0)
        < (List.insertionSort (· ≤ ·) ps).length :=
      List.indexOf_lt_length.mpr (hmem j hj)
    exact bhAdjustSorted_mono_pos _ _ _
      (indexOf_mono_of_sorted hs (hmem i hi) (hmem j hj) hij) hposj

/-- Witness for C5's (amended) theorem at `ps = [1/2, 1/4]`. -/
theorem multipletests_fdr_bh_props_witness :
    (∀ p ∈ ([1/2, 1/4] : List ℚ), 0 ≤ p ∧ p ≤ 1) ∧
      ([1/2, 1/4] : List ℚ).getD 0 0 ≤ (multipletests_fdr_bh [1/2, 1/4]).getD 0 0 :=
  ⟨by norm_num, (multipletests_fdr_bh_props [1/2, 1/4] (by norm_num)).1 0 (by norm_num)⟩



/-- Counterexample to C5 as stated: for raw p-values `[1/4, 1]` the
adjusted p-values are `[1/2, 1]`; arranged by raw p-value *descending*
the adjusted sequence is `[1, 1/2]`, which is not monotone
non-decreasing.  (The correct direction is ascending.) -/
theorem bh_not_monotone_desc :
    bhDescOutputs [1/4, 1] = [1, 1/2] ∧
      ¬ List.Sorted (· ≤ ·) (bhDescOutputs [1/4, 1]) := by
  have h : bhDescOutputs [1/4, 1] = [1, 1/2] := by
    norm_num [bhDescOutputs, multipletests_fdr_bh, bhAdjustSorted, suffixMins,
      List.insertionSort, List.orderedInsert, List.enum, List.enumFrom,
      List.indexOf_cons_self, List.indexOf_cons_ne, List.indexOf_nil]
  refine ⟨h, ?_⟩
  rw [h]
  simp [List.sorted_cons]
  norm_num

/-! ## C6: Kaplan–Meier curve invariants -/

theorem kmFactor_mem (ar : ℕ) :
    0 ≤ ((ar : ℚ) - 1) / (ar : ℚ) ∧ ((ar : ℚ) - 1) / (ar : ℚ) ≤ 1 := by
  cases ar with
  | zero => norm_num
  | succ n =>
    constructor
    · apply div_nonneg
      · push_cast
        linarith
      · positivity
    · rw [div_le_one (by positivity)]
      push_cast
      linarith

theorem kmFold_proj (sPrev : ℚ) (bucket : List (ℚ × ℚ)) :
    ∀ (s : ℚ) (ar : ℕ) (mk : List (ℚ × ℚ)),
      ((bucket.foldl (kmFold sPrev) (s, ar, mk)).1,
        (bucket.foldl (kmFold sPrev) (s, ar, mk)).2.1)
        = bucket.foldl kmSA (s, ar) := by
  induction bucket with
  | nil => intro s ar mk; rfl
  | cons ob obs ih =>
    intro s ar mk
    rw [List.foldl_cons, List.foldl_cons]
    by_cases hob : ob.2 ≠ 0
    · simp only [kmFold, kmSA, if_pos hob]
      exact ih _ _ _
    · simp only [kmFold, kmSA, if_neg hob]
      exact ih _ _ _

theorem kmSA_fold_bounds (bucket : List (ℚ × ℚ)) :
    ∀ (s : ℚ) (ar : ℕ), 0 ≤ s →
      0 ≤ (bucket.foldl kmSA (s, ar)).1 ∧ (bucket.foldl kmSA (s, ar)).1 ≤ s := by
  induction bucket with
  | nil => intro s ar hs; exact ⟨hs, le_refl s⟩
  | cons ob obs ih =>
    intro s ar hs
    rw [List.foldl_cons]
    by_cases hob : ob.2 ≠ 0
    · simp only [kmSA, if_pos hob]
      have hf := kmFactor_mem ar
      have hs' : 0 ≤ s * (((ar : ℚ) - 1) / (ar : ℚ)) := mul_nonneg hs hf.1
      obtain ⟨h1, h2⟩ := ih _ (ar - 1) hs'
      refine ⟨h1, le_trans h2 ?_⟩
      calc s * (((ar : ℚ) - 1) / (ar : ℚ)) ≤ s * 1 := mul_le_mul_of_nonneg_left hf.2 hs
        _ = s := mul_one s
    · simp only [kmSA, if_neg hob]
      exact ih _ (ar - 1) hs

theorem kmStep_rem (st : KMState) (t : ℚ) :
    (kmStep st t).rem = st.rem.dropWhile (fun ob => ob.1 ≤ t) := rfl

theorem kmStep_steps (st : KMState) (t : ℚ) :
    (kmStep st t).steps = st.steps ++ [(t, (kmStep st t).surv)] := rfl

theorem kmStep_sa (st : KMState) (t : ℚ) :
    ((kmStep st t).surv, (kmStep st t).atRisk)
      = (st.rem.takeWhile (fun ob => ob.1 ≤ t)).foldl kmSA (st.surv, st.atRisk) :=
  kmFold_proj st.surv _ st.surv st.atRisk st.markers

theorem kmStep_surv_le (st : KMState) (t : ℚ) (hs : 0 ≤ st.surv) :
    0 ≤ (kmStep st t).surv ∧ (kmStep st t).surv ≤ st.surv := by
  have h := kmStep_sa st t
  have hb := kmSA_fold_bounds (st.rem.takeWhile (fun ob => ob.1 ≤ t)) st.surv st.atRisk hs
  have h1 : (kmStep st t).surv
      = ((st.rem.takeWhile (fun ob => ob.1 ≤ t)).foldl kmSA (st.surv, st.atRisk)).1 :=
    congrArg Prod.fst h
  rw [h1]
  exact hb

theorem kmFoldl_steps_props (ts : List ℚ) :
    ∀ st : KMState, st.steps ≠ [] →
      List.Chain' (fun a b : ℚ × ℚ => b.2 ≤ a.2) st.steps →
      st.steps.getLast?.map Prod.snd = some st.surv →
      0 ≤ st.surv →
      (ts.foldl kmStep st).steps ≠ [] ∧
        List.Chain' (fun a b : ℚ × ℚ => b.2 ≤ a.2) (ts.foldl kmStep st).steps ∧
        (ts.foldl kmStep st).steps.getLast?.map Prod.snd = some (ts.foldl kmStep st).surv ∧
        0 ≤ (ts.foldl kmStep st).surv ∧
        (ts.foldl kmStep st).steps.head? = st.steps.head? := by
  induction ts with
  | nil =>
    intro st h1 h2 h3 h4
    exact ⟨h1, h2, h3, h4, rfl⟩
  | cons t ts ih =>
    intro st h1 h2 h3 h4
    rw [List.foldl_cons]
    obtain ⟨hs0, hsle⟩ := kmStep_surv_le st t h4
    have hsteps := kmStep_steps st t
    have hne : (kmStep st t).steps ≠ [] := by
      rw [hsteps]
      simp
    have hchain : List.Chain' (fun a b : ℚ × ℚ => b.2 ≤ a.2) (kmStep st t).steps := by
      rw [hsteps, List.chain'_append]
      refine ⟨h2, List.chain'_singleton _, ?_⟩
      intro x hx y hy
      simp only [List.head?_cons, Option.mem_def, Option.some.injEq] at hy
      have hx2 : x.2 = st.surv := by
        have : st.steps.getLast?.map Prod.snd = some x.2 := by
          rw [Option.mem_def] at hx
          rw [hx]
          rfl
        rw [h3] at this
        exact (Option.some.injEq _ _ ▸ this).symm
      rw [← hy, hx2]
      exact hsle
    have hlast : (kmStep st t).steps.getLast?.map Prod.snd = some (kmStep st t).surv := by
      rw [hsteps, List.getLast?_concat]
      rfl
    have hhead : (kmStep st t).steps.head? = st.steps.head? := by
      rw [hsteps]
      cases hst : st.steps with
      | nil => exact absurd hst h1
      | cons a l => simp
    obtain ⟨r1, r2, r3, r4, r5⟩ := ih (kmStep st t) hne hchain hlast hs0
    exact ⟨r1, r2, r3, r4, r5.trans hhead⟩

theorem uniqueSorted_zero_cons (durs : List ℚ) (hpos : ∀ d ∈ durs, 0 ≤ d) :
    ∃ rest, uniqueSorted (0 :: durs) = 0 :: rest ∧ (∀ t ∈ rest, 0 < t) := by
  have h0 : (0 : ℚ) ∈ uniqueSorted (0 :: durs) :=
    mem_uniqueSorted.mpr (List.mem_cons_self 0 durs)
  have hall : ∀ t ∈ uniqueSorted (0 :: durs), 0 ≤ t := by
    intro t ht
    rcases List.mem_cons.mp (mem_uniqueSorted.mp ht) with rfl | h
    · exact le_refl 0
    · exact hpos t h
  cases h : uniqueSorted (0 :: durs) with
  | nil =>
    rw [h] at h0
    cases h0
  | cons t0 rest =>
    have hsorted := uniqueSorted_sorted_lt (0 :: durs)
    rw [h] at hsorted h0 hall
    have hrest : ∀ t ∈ rest, t0 < t := (List.sorted_cons.mp hsorted).1
    have ht0 : t0 = 0 := by
      rcases List.mem_cons.mp h0 with heq | hmem
      · exact heq.symm
      · exact absurd (hrest 0 hmem) (not_lt.mpr (hall t0 (List.mem_cons_self _ _)))
    subst ht0
    exact ⟨rest, rfl, hrest⟩

theorem kmCurve_eq_of (durs evs : List ℚ) (t0 : ℚ) (rest : List ℚ)
    (h : uniqueSorted (0 :: durs) = t0 :: rest) :
    kmCurve durs evs = rest.foldl kmStep
      ⟨List.insertionSort (fun a b => a.1 ≤ b.1) (durs.zip evs),
        1, durs.length, [(t0, 1)], []⟩ := by
  rw [kmCurve, h]

theorem kmCurve_head (durs evs : List ℚ) (hpos : ∀ d ∈ durs, 0 ≤ d) :
    (kmCurve durs evs).steps.head? = some (0, 1) := by
  obtain ⟨rest, h, _⟩ := uniqueSorted_zero_cons durs hpos
  rw [kmCurve_eq_of durs evs 0 rest h]
  have hprops := kmFoldl_steps_props rest
    ⟨List.insertionSort (fun a b => a.1 ≤ b.1) (durs.zip evs),
      1, durs.length, [(0, 1)], []⟩
    (by simp) (List.chain'_singleton _) rfl (by norm_num)
  rw [hprops.2.2.2.2]
  rfl

theorem kmCurve_chain (durs evs : List ℚ) :
    List.Chain' (fun a b : ℚ × ℚ => b.2 ≤ a.2) (kmCurve durs evs).steps := by
  cases h : uniqueSorted (0 :: durs) with
  | nil =>
    exfalso
    have h0 : (0 : ℚ) ∈ uniqueSorted (0 :: durs) :=
      mem_uniqueSorted.mpr (List.mem_cons_self 0 durs)
    rw [h] at h0
    cases h0
  | cons t0 rest =>
    rw [kmCurve_eq_of durs evs t0 rest h]
    exact (kmFoldl_steps_props rest
      ⟨List.insertionSort (fun a b => a.1 ≤ b.1) (durs.zip evs),
        1, durs.length, [(t0, 1)], []⟩
      (by simp) (List.chain'_singleton _) rfl (by norm_num)).2.1

theorem dropWhile_all_gt (t : ℚ) :
    ∀ l : List (ℚ × ℚ), List.Sorted (fun a b : ℚ × ℚ => a.1 ≤ b.1) l →
      ∀ ob ∈ l.dropWhile (fun ob => ob.1 ≤ t), t < ob.1 := by
  intro l
  induction l with
  | nil =>
    intro _ ob hob
    simp [List.dropWhile] at hob
  | cons x xs ih =>
    intro hs ob hob
    rw [List.dropWhile_cons] at hob
    by_cases hx : x.1 ≤ t
    · rw [if_pos (by simpa using hx)] at hob
      exact ih (List.sorted_cons.mp hs).2 ob hob
    · rw [if_neg (by simpa using hx)] at hob
      rcases List.mem_cons.mp hob with rfl | hob'
      · exact lt_of_not_le hx
      · exact lt_of_lt_of_le (lt_of_not_le hx) ((List.sorted_cons.mp hs).1 ob hob')

theorem kmFoldl_consume (ts : List ℚ) :
    ∀ st : KMState, List.Sorted (fun a b : ℚ × ℚ => a.1 ≤ b.1) st.rem →
      (∀ ob ∈ st.rem, ∃ t ∈ ts, ob.1 ≤ t) →
      ((ts.foldl kmStep st).surv, (ts.foldl kmStep st).atRisk)
        = st.rem.foldl kmSA (st.surv, st.atRisk) := by
  induction ts with
  | nil =>
    intro st _ hb
    cases hrem : st.rem with
    | nil => simp [hrem]
    | cons ob obs =>
      exfalso
      obtain ⟨tt, htt, _⟩ := hb ob (by rw [hrem]; exact List.mem_cons_self _ _)
      exact absurd htt (List.not_mem_nil tt)
  | cons t1 ts ih =>
    intro st hsort hb
    rw [List.foldl_cons]
    have hsort' : List.Sorted (fun a b : ℚ × ℚ => a.1 ≤ b.1) (kmStep st t1).rem := by
      rw [kmStep_rem]
      exact List.Pairwise.sublist (List.dropWhile_sublist _) hsort
    have hb' : ∀ ob ∈ (kmStep st t1).rem, ∃ t ∈ ts, ob.1 ≤ t := by
      intro ob hob
      rw [kmStep_rem] at hob
      have hgt : t1 < ob.1 := dropWhile_all_gt t1 st.rem hsort ob hob
      have hmem : ob ∈ st.rem := (List.dropWhile_sublist _).subset hob
      obtain ⟨tt, htt, hle⟩ := hb ob hmem
      rcases List.mem_cons.mp htt with rfl | htt'
      · exact absurd hle (not_le.mpr hgt)
      · exact ⟨tt, htt', hle⟩
    rw [ih (kmStep st t1) hsort' hb', kmStep_rem, kmStep_sa]
    rw [← List.foldl_append, List.takeWhile_append_dropWhile]

theorem kmSA_all_events_zero :
    ∀ obs : List (ℚ × ℚ), obs ≠ [] → (∀ ob ∈ obs, ob.2 ≠ 0) →
      ∀ s : ℚ, (obs.foldl kmSA (s, obs.length)).1 = 0 := by
  intro obs
  induction obs with
  | nil => intro h; cases h rfl
  | cons ob rest ih =>
    intro _ hev s
    rw [List.foldl_cons]
    have hob : ob.2 ≠ 0 := hev ob (List.mem_cons_self _ _)
    cases rest with
    | nil =>
      simp only [kmSA, if_pos hob, List.length_cons, List.length_nil, List.foldl_nil]
      norm_num
    | cons ob2 rest2 =>
      have h1 : kmSA (s, (ob :: ob2 :: rest2).length) ob
          = (s * ((((ob :: ob2 :: rest2).length : ℚ) - 1) / ((ob :: ob2 :: rest2).length : ℚ)),
            (ob2 :: rest2).length) := by
        simp [kmSA, if_pos hob]
      rw [h1]
      exact ih (by simp) (fun o ho => hev o (List.mem_cons_of_mem _ ho)) _

theorem kmCurve_getLast_surv (durs evs : List ℚ) :
    (kmCurve durs evs).steps.getLast?.map Prod.snd = some (kmCurve durs evs).surv := by
  cases h : uniqueSorted (0 :: durs) with
  | nil =>
    exfalso
    have h0 : (0 : ℚ) ∈ uniqueSorted (0 :: durs) :=
      mem_uniqueSorted.mpr (List.mem_cons_self 0 durs)
    rw [h] at h0
    cases h0
  | cons t0 rest =>
    rw [kmCurve_eq_of durs evs t0 rest h]
    exact (kmFoldl_steps_props rest
      ⟨List.insertionSort (fun a b => a.1 ≤ b.1) (durs.zip evs),
        1, durs.length, [(t0, 1)], []⟩
      (by simp) (List.chain'_singleton _) rfl (by norm_num)).2.2.1

theorem kmCurve_surv_zero (pairs : List (ℚ × ℚ))
    (hev : ∀ ob ∈ pairs, ob.2 ≠ 0)
    (hpos : ∀ ob ∈ pairs, 0 ≤ ob.1)
    (hne : ∃ ob ∈ pairs, ob.1 ≠ 0) :
    (kmCurve (pairs.map Prod.fst) (pairs.map Prod.snd)).surv = 0 := by
  have hzip : (pairs.map Prod.fst).zip (pairs.map Prod.snd) = pairs :=
    Eq.symm (List.zip_of_prod rfl rfl)
  have hposd : ∀ d ∈ pairs.map Prod.fst, 0 ≤ d := by
    intro d hd
    obtain ⟨ob, hob, rfl⟩ := List.mem_map.mp hd
    exact hpos ob hob
  obtain ⟨rest, htimes, hrestpos⟩ := uniqueSorted_zero_cons (pairs.map Prod.fst) hposd
  rw [kmCurve_eq_of _ _ 0 rest htimes, hzip, List.length_map]
  have hperm : (List.insertionSort (fun a b : ℚ × ℚ => a.1 ≤ b.1) pairs).Perm pairs :=
    List.perm_insertionSort _ _
  have hsorted : List.Sorted (fun a b : ℚ × ℚ => a.1 ≤ b.1)
      (List.insertionSort (fun a b : ℚ × ℚ => a.1 ≤ b.1) pairs) :=
    List.sorted_insertionSort _ _
  have hbound : ∀ ob ∈ List.insertionSort (fun a b : ℚ × ℚ => a.1 ≤ b.1) pairs,
      ∃ t ∈ rest, ob.1 ≤ t := by
    intro ob hob
    have hobp : ob ∈ pairs := hperm.mem_iff.mp hob
    have hmem1 : ob.1 ∈ uniqueSorted (0 :: pairs.map Prod.fst) :=
      mem_uniqueSorted.mpr
        (List.mem_cons_of_mem _ (List.mem_map.mpr ⟨ob, hobp, rfl⟩))
    rw [htimes] at hmem1
    by_cases hz : ob.1 = 0
    · obtain ⟨ob0, hob0, hob0ne⟩ := hne
      have hmem0 : ob0.1 ∈ uniqueSorted (0 :: pairs.map Prod.fst) :=
        mem_uniqueSorted.mpr
          (List.mem_cons_of_mem _ (List.mem_map.mpr ⟨ob0, hob0, rfl⟩))
      rw [htimes] at hmem0
      rcases List.mem_cons.mp hmem0 with heq | hmem0'
      · exact absurd heq hob0ne
      · exact ⟨ob0.1, hmem0', by rw [hz]; exact hpos ob0 hob0⟩
    · rcases List.mem_cons.mp hmem1 with heq | hmem1'
      · exact absurd heq hz
      · exact ⟨ob.1, hmem1', le_refl _⟩
  have hcons := kmFoldl_consume rest
    ⟨List.insertionSort (fun a b : ℚ × ℚ => a.1 ≤ b.1) pairs,
      1, pairs.length, [(0, 1)], []⟩ hsorted hbound
  have hsurv := congrArg Prod.fst hcons
  simp only at hsurv
  rw [hsurv]
  have hlen : pairs.length = (List.insertionSort (fun a b : ℚ × ℚ => a.1 ≤ b.1) pairs).length :=
    hperm.length_eq.symm
  rw [hlen]
  obtain ⟨ob0, hob0, _⟩ := hne
  refine kmSA_all_events_zero _ ?_ ?_ 1
  · intro hnil
    rw [← hperm.mem_iff] at hob0
    rw [hnil] at hob0
    cases hob0
  · intro o ho
    exact hev o (hperm.mem_iff.mp ho)

theorem neverEventCount_eq_zero (pairs : List (ℚ × ℚ))
    (hev : ∀ ob ∈ pairs, ob.2 ≠ 0) :
    neverEventCount pairs (lastEventTime pairs) = 0 := by
  rw [neverEventCount, List.length_eq_zero, List.filter_eq_nil]
  intro ob hob
  simp only [decide_eq_true_eq, Decidable.not_not]
  refine ⟨hev ob hob, ?_⟩
  have hm : ob.1 ∈ (pairs.filter (fun ob => ob.2 ≠ 0)).map Prod.fst :=
    List.mem_map.mpr ⟨ob, List.mem_filter.mpr ⟨hob, by simpa using hev ob hob⟩, rfl⟩
  have hle := List.le_maximum_of_mem' hm
  rw [lastEventTime]
  cases hmax : ((pairs.filter (fun ob => ob.2 ≠ 0)).map Prod.fst).maximum with
  | bot =>
    rw [hmax] at hle
    exact absurd hle (by simp)
  | coe M =>
    rw [hmax] at hle
    have hM : ob.1 ≤ M := by exact_mod_cast hle
    simpa [WithBot.unbot'] using hM

theorem groupPairs_fst_mem {durations events groups : List ℚ} {g : ℚ}
    {ob : ℚ × ℚ} (h : ob ∈ groupPairs durations events groups g) :
    ob.1 ∈ durations := by
  rw [groupPairs] at h
  obtain ⟨x, hx, rfl⟩ := List.mem_map.mp h
  have hx' : x ∈ (durations.zip events).zip groups := (List.mem_filter.mp hx).1
  rcases x with ⟨⟨d, e⟩, gr⟩
  exact (List.mem_zip (List.mem_zip hx').1).1

/-- C6 (amended): every group's survival curve starts at `(0, 1)` and its
probabilities are non-increasing along the (time-ascending) step list;
and when the group has no censored observations *and at least one event
at a nonzero time*, the final survival value equals the number of
subjects that never had an event at or before the last event time
divided by the group's subject count. -/
theorem groupCurve_props (durations events groups : List ℚ) (g : ℚ)
    (hpos : ∀ d ∈ durations, 0 ≤ d) :
    (groupCurve durations events groups g).steps.head? = some (0, 1) ∧
      List.Chain' (fun a b : ℚ × ℚ => b.2 ≤ a.2)
        (groupCurve durations events groups g).steps ∧
      ((∀ ob ∈ groupPairs durations events groups g, ob.2 ≠ 0) →
        (∃ ob ∈ groupPairs durations events groups g, ob.1 ≠ 0) →
        (groupCurve durations events groups g).steps.getLast?.map Prod.snd
          = some ((neverEventCount (groupPairs durations events groups g)
              (lastEventTime (groupPairs durations events groups g)) : ℚ)
            / ((groupPairs durations events groups g).length : ℚ))) := by
  have hposg : ∀ d ∈ (groupPairs durations events groups g).map Prod.fst, 0 ≤ d := by
    intro d hd
    obtain ⟨ob, hob, rfl⟩ := List.mem_map.mp hd
    exact hpos _ (groupPairs_fst_mem hob)
  refine ⟨kmCurve_head _ _ hposg, kmCurve_chain _ _, ?_⟩
  intro hev hne
  have hposp : ∀ ob ∈ groupPairs durations events groups g, 0 ≤ ob.1 :=
    fun ob hob => hpos _ (groupPairs_fst_mem hob)
  have hz := kmCurve_surv_zero (groupPairs durations events groups g) hev hposp hne
  have hlast := kmCurve_getLast_surv
    ((groupPairs durations events groups g).map Prod.fst)
    ((groupPairs durations events groups g).map Prod.snd)
  rw [groupCurve, hlast, hz, neverEventCount_eq_zero _ hev]
  norm_num

/-- Witness for C6 at `durations=[1,2], events=[1,1], groups=[0,0], g=0`. -/
theorem groupCurve_props_witness :
    (∀ d ∈ ([1, 2] : List ℚ), 0 ≤ d) ∧
      (groupCurve [1, 2] [1, 1] [0, 0] 0).steps.head? = some (0, 1) ∧
      (groupCurve [1, 2] [1, 1] [0, 0] 0).steps.getLast?.map Prod.snd
        = some ((neverEventCount (groupPairs [1, 2] [1, 1] [0, 0] 0)
            (lastEventTime (groupPairs [1, 2] [1, 1] [0, 0] 0)) : ℚ)
          / ((groupPairs [1, 2] [1, 1] [0, 0] 0).length : ℚ)) := by
  have h := groupCurve_props [1, 2] [1, 1] [0, 0] 0 (by norm_num)
  exact ⟨by norm_num, h.1, h.2.2 (by decide) ⟨(1, 1), by decide, by norm_num⟩⟩

/-- Counterexample to C6 as stated: when all of a group's events happen
at time 0 (`durations=[0], events=[1]`, single group `5`), the curve's
only step is `(0, 1)` — the event is never applied because the loop
starts at `unique_times[1:]` — so the final survival value is `1`, while
the claimed no-censoring formula gives `0/1 = 0`. -/
theorem groupCurve_final_counterexample :
    (∀ ob ∈ groupPairs [0] [1] [5] 5, ob.2 ≠ 0) ∧
      (groupCurve [0] [1] [5] 5).steps.getLast?.map Prod.snd = some 1 ∧
      ((neverEventCount (groupPairs [0] [1] [5] 5)
          (lastEventTime (groupPairs [0] [1] [5] 5)) : ℚ)
        / ((groupPairs [0] [1] [5] 5).length : ℚ)) = 0 ∧
      ¬ ((groupCurve [0] [1] [5] 5).steps.getLast?.map Prod.snd
          = some ((neverEventCount (groupPairs [0] [1] [5] 5)
              (lastEventTime (groupPairs [0] [1] [5] 5)) : ℚ)
            / ((groupPairs [0] [1] [5] 5).length : ℚ))) := by
  have h1 : (groupCurve [0] [1] [5] 5).steps = [(0, 1)] := rfl
  have h2 : neverEventCount (groupPairs [0] [1] [5] 5)
      (lastEventTime (groupPairs [0] [1] [5] 5)) = 0 := by decide
  refine ⟨by decide, by rw [h1]; rfl, by rw [h2]; norm_num, ?_⟩
  rw [h1, h2]
  simp


/-! ## C7: degenerate partitions are skipped; the test never runs with < 2 groups -/

theorem processVariable_skip (sf : SF) (t : VarTable) (name : String)
    (hdeg : degenerateColumn sf t name) :
    ∀ st : ScanState, processVariable sf t st name = st := by
  intro st
  obtain ⟨col, hcol, hlt⟩ := hdeg
  cases col with
  | numeric vals =>
    simp only [columnGroups] at hlt
    rw [processVariable, hcol]
    simp only [if_pos hlt]
  | categorical vals =>
    simp only [columnGroups] at hlt
    rw [processVariable, hcol]
    simp only [if_pos hlt]

theorem processVariable_counts (sf : SF) (t : VarTable) (st : ScanState)
    (name : String) :
    ∀ k ∈ (processVariable sf t st name).logrankGroupCounts,
      k ∈ st.logrankGroupCounts ∨ 2 ≤ k := by
  intro k hk
  rw [processVariable] at hk
  cases hcol : (lookupCol t.metaCols name).orElse (fun _ => lookupCol t.geneCols name) with
  | none =>
    rw [hcol] at hk
    simp only at hk
    by_cases hg : name = "GENES"
    · rw [if_pos hg] at hk
      exact Or.inl hk
    · rw [if_neg hg] at hk
      exact Or.inl hk
  | some col =>
    rw [hcol] at hk
    cases col with
    | numeric vals =>
      simp only at hk
      split at hk
      · exact Or.inl hk
      · simp only [ScanState.mk.injEq] at hk
        rcases List.mem_append.mp hk with hk | hk
        · exact Or.inl hk
        · rw [List.mem_singleton] at hk
          subst hk
          right
          omega
    | categorical vals =>
      simp only at hk
      split at hk
      · exact Or.inl hk
      · rcases List.mem_append.mp hk with hk | hk
        · exact Or.inl hk
        · rw [List.mem_singleton] at hk
          subst hk
          right
          omega

theorem analyzeVariables_counts_aux (sf : SF) (t : VarTable) (names : List String) :
    ∀ st : ScanState, (∀ k ∈ st.logrankGroupCounts, 2 ≤ k) →
      ∀ k ∈ (names.foldl (processVariable sf t) st).logrankGroupCounts, 2 ≤ k := by
  induction names with
  | nil => intro st hst; exact hst
  | cons name rest ih =>
    intro st hst
    rw [List.foldl_cons]
    refine ih (processVariable sf t st name) ?_
    intro k hk
    rcases processVariable_counts sf t st name k hk with h | h
    · exact hst k h
    · exact h

/-- C7 (amended): a variable whose partition yields fewer than 2 distinct
groups is skipped *silently* — the scan state (results, warnings, and the
instrumented log-rank call trace) is left unchanged, so no warning is
surfaced — the scan continues over the remaining variables unchanged, and
every `calculate_logrank` call the driver makes is on a partition with at
least 2 distinct groups. -/
theorem scan_degenerate_skip (sf : SF) (t : VarTable) (names : List String)
    (name : String) (hdeg : degenerateColumn sf t name) :
    (∀ st : ScanState, processVariable sf t st name = st) ∧
      analyzeVariables sf t (name :: names) = analyzeVariables sf t names ∧
      (∀ k ∈ (analyzeVariables sf t names).logrankGroupCounts, 2 ≤ k) := by
  refine ⟨processVariable_skip sf t name hdeg, ?_, ?_⟩
  · rw [analyzeVariables, analyzeVariables, List.foldl_cons,
      processVariable_skip sf t name hdeg]
  · exact analyzeVariables_counts_aux sf t names ⟨[], [], []⟩ (by simp)

/-- Witness for C7 on the concrete one-group table `t7`. -/
theorem scan_degenerate_skip_witness :
    degenerateColumn sfW t7 "G" ∧
      analyzeVariables sfW t7 ["G", "G"] = analyzeVariables sfW t7 ["G"] := by
  have hdeg : degenerateColumn sfW t7 "G" :=
    ⟨Column.categorical [some 0, some 0], rfl, by decide⟩
  exact ⟨hdeg, (scan_degenerate_skip sfW t7 ["G"] "G" hdeg).2.1⟩

/-- Counterexample to C7 as stated: on `t7` the single variable `G` is
degenerate (one group) and is skipped, but the scan's warning list stays
empty — no warning is surfaced.  (The code's `continue` at lines 167–168
and 193–194 prints nothing; only an unknown column name gets a
`[Warning]` line.) -/
theorem scan_degenerate_skip_no_warning :
    degenerateColumn sfW t7 "G" ∧
      analyzeVariables sfW t7 ["G"] = ⟨[], [], []⟩ := by
  refine ⟨⟨Column.categorical [some 0, some 0], rfl, by decide⟩, ?_⟩
  have hdeg : degenerateColumn sfW t7 "G" :=
    ⟨Column.categorical [some 0, some 0], rfl, by decide⟩
  rw [analyzeVariables, List.foldl_cons, processVariable_skip sfW t7 "G" hdeg]
  rfl

/-! ## C9 and C10: the gene scan -/

/-- `np.percentile(values, 50)` is exactly `np.median(values)`. -/
theorem percentile_50_eq_median (values : List ℚ) :
    percentile values 50 = median values := by
  simp only [percentile, median]
  generalize List.insertionSort (· ≤ ·) values = s
  rcases Nat.even_or_odd s.length with ⟨k, hk⟩ | ⟨k, hk⟩
  · rcases Nat.eq_zero_or_pos k with rfl | hkpos
    · have hnil : s = [] := List.length_eq_zero.mp (by omega)
      subst hnil
      norm_num [List.getD]
    · have hh : ((s.length : ℚ) - 1) * 50 / 100 = (k : ℚ) - 1/2 := by
        rw [hk]
        push_cast
        ring
      rw [hh]
      have hfloor : ⌊(k : ℚ) - 1/2⌋ = (k : ℤ) - 1 := by
        rw [Int.floor_eq_iff]
        push_cast
        constructor
        · linarith
        · linarith
      have hceil : ⌈(k : ℚ) - 1/2⌉ = (k : ℤ) := by
        rw [Int.ceil_eq_iff]
        push_cast
        constructor
        · linarith [show (0:ℚ) < k by exact_mod_cast hkpos]
        · linarith [show (0:ℚ) < k by exact_mod_cast hkpos]
      rw [hfloor, hceil]
      have ht1 : ((k : ℤ) - 1).toNat = k - 1 := by omega
      have ht2 : ((k : ℤ)).toNat = k := by omega
      rw [ht1, ht2]
      rw [if_neg (by omega)]
      have hdiv : s.length / 2 = k := by omega
      rw [hdiv]
      push_cast
      ring
  · have hh : ((s.length : ℚ) - 1) * 50 / 100 = ((k : ℕ) : ℚ) := by
      rw [hk]
      push_cast
      ring
    rw [hh, Int.floor_natCast, Int.ceil_natCast, Int.toNat_natCast]
    rw [if_pos (by omega)]
    have hdiv : s.length / 2 = k := by omega
    rw [hdiv]
    ring

/-- C9: in the gene scan, every retained gene is partitioned at the
sample median of its cleaned values (`np.percentile(values, 50)`, which
provably equals `np.median`), the recorded threshold is that median, the
recorded p-value is the log-rank p-value of that median split (no
threshold search is involved), the output rows are sorted ascending by
raw p-value after the Benjamini–Hochberg correction, and the reported
significant count is the number of rows with adjusted p-value < 0.05. -/
theorem analyzeGenes_props (sf : SF) (durations events : List (Option ℚ))
    (genes : List (String × List (Option ℚ))) :
    (∀ g ∈ genes, ∀ r : GeneResult,
      processGene sf durations events g = some r →
        r.gene = g.1 ∧
        r.threshold
          = median ((cleanRows durations events g.2).map (fun x => x.2.2)) ∧
        r.threshold
          = percentile ((cleanRows durations events g.2).map (fun x => x.2.2)) 50 ∧
        r.p_value = (calculate_logrank sf
          ((cleanRows durations events g.2).map (fun x => x.1))
          ((cleanRows durations events g.2).map (fun x => x.2.1))
          (thresholdGroups ((cleanRows durations events g.2).map (fun x => x.2.2))
            (percentile ((cleanRows durations events g.2).map (fun x => x.2.2)) 50))).2) ∧
      List.Sorted (· ≤ ·)
        ((analyzeGenes sf durations events genes).1.map (fun x => x.1.p_value)) ∧
      (analyzeGenes sf durations events genes).2
        = ((analyzeGenes sf durations events genes).1.filter
            (fun x => x.2 < 1/20)).length := by
  refine ⟨?_, ?_, rfl⟩
  · intro g _ r hr
    simp only [processGene] at hr
    split at hr
    · exact absurd hr (by simp)
    · rw [Option.some.injEq] at hr
      subst hr
      exact ⟨rfl, percentile_50_eq_median _, rfl, rfl⟩
  · have hsorted : List.Sorted (fun a b : GeneResult × ℚ => a.1.p_value ≤ b.1.p_value)
        (analyzeGenes sf durations events genes).1 :=
      List.sorted_insertionSort _ _
    exact List.Pairwise.map _ (fun a b h => h) hsorted

/-- Witness for C9: a two-subject table with one gene column `A`; the
gene is retained and its recorded threshold equals the median. -/
theorem analyzeGenes_props_witness :
    processGene sfW [some 1, some 2] [some 1, some 1] ("A", [some 1, some 2])
        = some geneWitnessResult ∧
      geneWitnessResult.threshold
        = median ((cleanRows [some 1, some 2] [some 1, some 1]
            [some 1, some 2]).map (fun x => x.2.2)) := by
  have hclean : cleanRows [some 1, some 2] [some 1, some 1] [some (1:ℚ), some 2]
      = [(1, 1, 1), (2, 1, 2)] := rfl
  have hceil : (⌈(1:ℚ)/2⌉ : ℤ) = 1 := by
    rw [Int.ceil_eq_iff]
    norm_num
  have hperc : percentile [(1:ℚ), 2] 50 = 3/2 := by
    norm_num [percentile, List.insertionSort, List.orderedInsert, hceil]
  have hguard : ¬ (uniqueSorted (thresholdGroups [(1:ℚ), 2]
      (percentile [(1:ℚ), 2] 50))).length < 2 := by
    rw [hperc]
    norm_num [thresholdGroups, uniqueSorted, List.insertionSort, List.orderedInsert,
      List.dedup]
  have hpg : processGene sfW [some 1, some 2] [some 1, some 1] ("A", [some 1, some 2])
      = some geneWitnessResult := by
    simp only [processGene, hclean, List.map_cons, List.map_nil]
    rw [if_neg hguard]
    rfl
  refine ⟨hpg, ?_⟩
  exact ((analyzeGenes_props sfW [some 1, some 2] [some 1, some 1]
    [("A", [some 1, some 2])]).1 ("A", [some 1, some 2])
    (List.mem_singleton.mpr rfl) geneWitnessResult hpg).2.1

/-- C10: a gene whose median split yields fewer than 2 distinct groups is
omitted entirely — the whole gene-scan output (rows, adjusted p-values
and significant count) for `gene :: genes` equals that for `genes` alone,
with no placeholder (no output row carries the dropped gene's name when
that name is fresh) and no warning channel at all in the gene loop; the
Benjamini–Hochberg family size is the number of *retained* genes; and
the adjusted p-values genuinely depend on how many genes were dropped:
the same raw p-value 1/2 adjusts to 1/2 in a one-gene family but to 3/4
when a second gene with raw p-value 3/4 is retained alongside it. -/
theorem geneScan_omits_degenerate (sf : SF) (durations events : List (Option ℚ))
    (gene : String × List (Option ℚ)) (genes : List (String × List (Option ℚ)))
    (hdeg : (uniqueSorted (thresholdGroups
        ((cleanRows durations events gene.2).map (fun r => r.2.2))
        (percentile ((cleanRows durations events gene.2).map (fun r => r.2.2)) 50))).length < 2) :
    analyzeGenes sf durations events (gene :: genes)
        = analyzeGenes sf durations events genes ∧
      ((gene :: genes).filterMap (processGene sf durations events)).length
        = (genes.filterMap (processGene sf durations events)).length ∧
      (gene.1 ∉ genes.map Prod.fst →
        ∀ x ∈ (analyzeGenes sf durations events (gene :: genes)).1, x.1.gene ≠ gene.1) ∧
      multipletests_fdr_bh [1/2] = [1/2] ∧
      multipletests_fdr_bh [1/2, 3/4] = [3/4, 3/4] := by
  have hnone : processGene sf durations events gene = none := by
    simp only [processGene]
    rw [if_pos hdeg]
  have hfm : (gene :: genes).filterMap (processGene sf durations events)
      = genes.filterMap (processGene sf durations events) :=
    List.filterMap_cons_none hnone
  have hmain : analyzeGenes sf durations events (gene :: genes)
      = analyzeGenes sf durations events genes := by
    rw [analyzeGenes, analyzeGenes, hfm]
  refine ⟨hmain, by rw [hfm], ?_, ?_, ?_⟩
  · intro hfresh x hx
    rw [hmain] at hx
    have hperm : ((genes.filterMap (processGene sf durations events)).zip
        (multipletests_fdr_bh ((genes.filterMap
          (processGene sf durations events)).map GeneResult.p_value))).Perm
        (analyzeGenes sf durations events genes).1 :=
      (List.perm_insertionSort _ _).symm
    have hx' := hperm.mem_iff.mpr hx
    have hx1 : x.1 ∈ genes.filterMap (processGene sf durations events) :=
      (List.mem_zip (by exact hx')).1
    obtain ⟨g, hg, hgx⟩ := List.mem_filterMap.mp hx1
    have hname : x.1.gene = g.1 := by
      simp only [processGene] at hgx
      split at hgx
      · exact absurd hgx (by simp)
      · rw [Option.some.injEq] at hgx
        rw [← hgx]
    intro hcon
    rw [hcon] at hname
    exact hfresh (hname ▸ List.mem_map.mpr ⟨g, hg, hname.symm ▸ rfl⟩)
  · norm_num [multipletests_fdr_bh, bhAdjustSorted, suffixMins, List.insertionSort,
      List.orderedInsert, List.enum, List.enumFrom, List.indexOf_cons_self,
      List.indexOf_cons_ne, List.indexOf_nil]
  · norm_num [multipletests_fdr_bh, bhAdjustSorted, suffixMins, List.insertionSort,
      List.orderedInsert, List.enum, List.enumFrom, List.indexOf_cons_self,
      List.indexOf_cons_ne, List.indexOf_nil]

/-- Witness for C10: a concrete degenerate gene (`constant expression
values`) next to a retained gene; the scan outputs are identical with
and without it. -/
theorem geneScan_omits_degenerate_witness :
    (uniqueSorted (thresholdGroups
        ((cleanRows [some 1, some 2] [some 1, some 1] [some 3, some 3]).map (fun r => r.2.2))
        (percentile ((cleanRows [some 1, some 2] [some 1, some 1]
          [some 3, some 3]).map (fun r => r.2.2)) 50))).length < 2 ∧
      analyzeGenes sfW [some 1, some 2] [some 1, some 1]
          (("B", [some 3, some 3]) :: [("A", [some 1, some 2])])
        = analyzeGenes sfW [some 1, some 2] [some 1, some 1] [("A", [some 1, some 2])] := by
  have hdeg : (uniqueSorted (thresholdGroups
      ((cleanRows [some 1, some 2] [some 1, some 1] [some 3, some 3]).map (fun r => r.2.2))
      (percentile ((cleanRows [some 1, some 2] [some 1, some 1]
        [some 3, some 3]).map (fun r => r.2.2)) 50))).length < 2 := by
    norm_num [cleanRows, percentile, thresholdGroups, uniqueSorted,
      List.insertionSort, List.orderedInsert, List.dedup, List.filterMap]
  exact ⟨hdeg, (geneScan_omits_degenerate sfW [some 1, some 2] [some 1, some 1]
    ("B", [some 3, some 3]) [("A", [some 1, some 2])] hdeg).1⟩


/-! ## C4: the optimal-threshold search -/

theorem fotStep_foldl_some (f : ℚ → ℚ) (valid : ℚ → Bool) :
    ∀ (cands : List ℚ) (m0 t0 : ℚ),
      cands.foldl (fotStep f valid) (some m0, t0)
        = (match firstMinBy f valid cands with
           | none => (some m0, t0)
           | some (m, u) => if m < m0 then (some m, u) else (some m0, t0)) := by
  intro cands
  induction cands with
  | nil => intro m0 t0; rfl
  | cons t ts ih =>
    intro m0 t0
    rw [List.foldl_cons, firstMinBy]
    have hstep : fotStep f valid (some m0, t0) t
        = if valid t then (if f t < m0 then (some (f t), t) else (some m0, t0))
          else (some m0, t0) := rfl
    by_cases hv : valid t
    · rw [if_pos hv, hstep, if_pos hv]
      cases hts : firstMinBy f valid ts with
      | none =>
        by_cases hlt : f t < m0
        · rw [if_pos hlt, ih, hts]
          simp only
          rw [if_pos hlt]
        · rw [if_neg hlt, ih, hts]
          simp only
          rw [if_neg hlt]
      | some mu =>
        obtain ⟨m, u⟩ := mu
        by_cases hlt : f t < m0
        · rw [if_pos hlt, ih, hts]
          simp only
          by_cases hfm : f t ≤ m
          · rw [if_neg (by linarith), if_pos hfm]
            simp only
            rw [if_pos hlt]
          · rw [if_pos (by linarith), if_neg hfm]
            simp only
            rw [if_pos (by linarith)]
        · rw [if_neg hlt, ih, hts]
          simp only
          by_cases hfm : f t ≤ m
          · rw [if_neg (by linarith), if_pos hfm]
            simp only
            rw [if_neg hlt]
          · rw [if_neg hfm]
    · rw [if_neg hv, hstep, if_neg hv, ih]

theorem fotStep_foldl_none (f : ℚ → ℚ) (valid : ℚ → Bool) :
    ∀ (cands : List ℚ) (d : ℚ),
      cands.foldl (fotStep f valid) (none, d)
        = (match firstMinBy f valid cands with
           | none => ((none : Option ℚ), d)
           | some (m, u) => (some m, u)) := by
  intro cands
  induction cands with
  | nil => intro d; rfl
  | cons t ts ih =>
    intro d
    rw [List.foldl_cons, firstMinBy]
    have hstep : fotStep f valid ((none : Option ℚ), d) t
        = if valid t then (some (f t), t) else (none, d) := rfl
    by_cases hv : valid t
    · rw [if_pos hv, hstep, if_pos hv, fotStep_foldl_some]
      cases hts : firstMinBy f valid ts with
      | none => simp only
      | some mu =>
        obtain ⟨m, u⟩ := mu
        simp only
        by_cases hfm : f t ≤ m
        · rw [if_neg (by linarith), if_pos hfm]
        · rw [if_pos (by linarith), if_neg hfm]
    · rw [if_neg hv, hstep, if_neg hv, ih]

theorem firstMinBy_mem (f : ℚ → ℚ) (valid : ℚ → Bool) :
    ∀ (cands : List ℚ) (m u : ℚ),
      firstMinBy f valid cands = some (m, u) → u ∈ cands ∧ m = f u := by
  intro cands
  induction cands with
  | nil => intro m u h; cases h
  | cons t ts ih =>
    intro m u h
    rw [firstMinBy] at h
    by_cases hv : valid t
    · rw [if_pos hv] at h
      cases hts : firstMinBy f valid ts with
      | none =>
        rw [hts] at h
        simp only [Option.some.injEq, Prod.mk.injEq] at h
        obtain ⟨hm, hu⟩ := h
        subst hu
        exact ⟨List.mem_cons_self _ _, hm.symm⟩
      | some mu =>
        obtain ⟨m', u'⟩ := mu
        rw [hts] at h
        simp only at h
        by_cases hle : f t ≤ m'
        · rw [if_pos hle] at h
          simp only [Option.some.injEq, Prod.mk.injEq] at h
          obtain ⟨hm, hu⟩ := h
          subst hu
          exact ⟨List.mem_cons_self _ _, hm.symm⟩
        · rw [if_neg hle] at h
          simp only [Option.some.injEq, Prod.mk.injEq] at h
          obtain ⟨hm, hu⟩ := h
          subst hu
          subst hm
          obtain ⟨hmem, hfu⟩ := ih _ _ hts
          exact ⟨List.mem_cons_of_mem t hmem, hfu⟩
    · rw [if_neg hv] at h
      obtain ⟨hmem, hfu⟩ := ih m u h
      exact ⟨List.mem_cons_of_mem t hmem, hfu⟩

theorem interp_idx (s : List ℚ) (a : ℚ) (ha : 0 ≤ a)
    (hb : a ≤ (s.length : ℚ) - 1) :
    (⌊a⌋).toNat ≤ (⌈a⌉).toNat ∧ (⌈a⌉).toNat < s.length := by
  have h0 : 0 ≤ ⌊a⌋ := Int.floor_nonneg.mpr ha
  have h1 : ⌊a⌋ ≤ ⌈a⌉ := Int.floor_le_ceil a
  have h2 : ⌈a⌉ ≤ (s.length : ℤ) - 1 := by
    rw [Int.ceil_le]
    push_cast
    exact hb
  omega

theorem interp_lower (s : List ℚ) (hs : List.Sorted (· ≤ ·) s)
    (a : ℚ) (ha : 0 ≤ a) (hb : a ≤ (s.length : ℚ) - 1) :
    s.getD (⌊a⌋).toNat 0
      ≤ s.getD (⌊a⌋).toNat 0
        + (a - ⌊a⌋) * (s.getD (⌈a⌉).toNat 0 - s.getD (⌊a⌋).toNat 0) := by
  obtain ⟨hle, hlt⟩ := interp_idx s a ha hb
  have hfr0 : 0 ≤ a - ⌊a⌋ := by linarith [Int.floor_le a]
  have hd : 0 ≤ s.getD (⌈a⌉).toNat 0 - s.getD (⌊a⌋).toNat 0 := by
    linarith [sorted_getD_mono hs hle hlt]
  nlinarith

theorem interp_le_hi (s : List ℚ) (hs : List.Sorted (· ≤ ·) s)
    (a : ℚ) (ha : 0 ≤ a) (hb : a ≤ (s.length : ℚ) - 1) :
    s.getD (⌊a⌋).toNat 0
        + (a - ⌊a⌋) * (s.getD (⌈a⌉).toNat 0 - s.getD (⌊a⌋).toNat 0)
      ≤ s.getD (⌈a⌉).toNat 0 := by
  obtain ⟨hle, hlt⟩ := interp_idx s a ha hb
  have hfr1 : a - ⌊a⌋ < 1 := by linarith [Int.lt_floor_add_one a]
  have hfr0 : 0 ≤ a - ⌊a⌋ := by linarith [Int.floor_le a]
  have hd : 0 ≤ s.getD (⌈a⌉).toNat 0 - s.getD (⌊a⌋).toNat 0 := by
    linarith [sorted_getD_mono hs hle hlt]
  nlinarith

theorem interp_mono (s : List ℚ) (hs : List.Sorted (· ≤ ·) s)
    (a b : ℚ) (ha : 0 ≤ a) (hab : a ≤ b) (hb : b ≤ (s.length : ℚ) - 1) :
    s.getD (⌊a⌋).toNat 0
        + (a - ⌊a⌋) * (s.getD (⌈a⌉).toNat 0 - s.getD (⌊a⌋).toNat 0)
      ≤ s.getD (⌊b⌋).toNat 0
        + (b - ⌊b⌋) * (s.getD (⌈b⌉).toNat 0 - s.getD (⌊b⌋).toNat 0) := by
  have ha' : a ≤ (s.length : ℚ) - 1 := le_trans hab hb
  have hb0 : 0 ≤ b := le_trans ha hab
  obtain ⟨hleA, hltA⟩ := interp_idx s a ha ha'
  obtain ⟨hleB, hltB⟩ := interp_idx s b hb0 hb
  by_cases hfl : ⌊a⌋ = ⌊b⌋
  · by_cases hint : a = ⌊a⌋
    · have h1 : a - ⌊a⌋ = 0 := by rw [← hint]; ring
      rw [h1, zero_mul, add_zero, hfl]
      exact interp_lower s hs b hb0 hb
    · have haf : (⌊a⌋ : ℚ) < a := lt_of_le_of_ne (Int.floor_le a) (Ne.symm hint)
      have hbf : (⌊b⌋ : ℚ) < b := by
        rw [← hfl]
        linarith
      have hca : ⌈a⌉ = ⌊a⌋ + 1 := by
        have h1 : ⌊a⌋ < ⌈a⌉ := by
          have h2 := Int.le_ceil a
          exact_mod_cast lt_of_lt_of_le haf h2
        have h2 := Int.ceil_le_floor_add_one a
        omega
      have hcb : ⌈b⌉ = ⌊b⌋ + 1 := by
        have h1 : ⌊b⌋ < ⌈b⌉ := by
          have h2 := Int.le_ceil b
          exact_mod_cast lt_of_lt_of_le hbf h2
        have h2 := Int.ceil_le_floor_add_one b
        omega
      rw [hca, hcb, hfl]
      have hd : 0 ≤ s.getD ((⌊b⌋ + 1).toNat) 0 - s.getD (⌊b⌋).toNat 0 := by
        have hle : (⌊b⌋).toNat ≤ (⌊b⌋ + 1).toNat := by omega
        have hlt' : (⌊b⌋ + 1).toNat < s.length := by
          rw [← hcb]
          exact hltB
        linarith [sorted_getD_mono hs hle hlt']
      have hba : 0 ≤ b - a := by linarith
      nlinarith
  · have hflt : ⌊a⌋ < ⌊b⌋ := lt_of_le_of_ne (Int.floor_le_floor hab) hfl
    have h1 := interp_le_hi s hs a ha ha'
    have h2 : s.getD (⌈a⌉).toNat 0 ≤ s.getD (⌊b⌋).toNat 0 := by
      apply sorted_getD_mono hs
      · have h3 := Int.ceil_le_floor_add_one a
        have h4 : 0 ≤ ⌊a⌋ := Int.floor_nonneg.mpr ha
        omega
      · have h3 : ⌊b⌋ ≤ ⌈b⌉ := Int.floor_le_ceil b
        have h4 : 0 ≤ ⌊b⌋ := Int.floor_nonneg.mpr hb0
        omega
    have h3 := interp_lower s hs b hb0 hb
    linarith

theorem percentile_mono (values : List ℚ) (p q : ℚ)
    (hp : 0 ≤ p) (hpq : p ≤ q) (hq : q ≤ 100) :
    percentile values p ≤ percentile values q := by
  have hs : List.Sorted (· ≤ ·) (List.insertionSort (· ≤ ·) values) :=
    List.sorted_insertionSort _ _
  simp only [percentile]
  rcases Nat.eq_zero_or_pos (List.insertionSort (· ≤ ·) values).length with h0 | hpos
  · have hnil : List.insertionSort (· ≤ ·) values = [] := List.length_eq_zero.mp h0
    rw [hnil]
    simp [List.getD]
  · have h1 : (1 : ℚ) ≤ ((List.insertionSort (· ≤ ·) values).length : ℚ) := by
      exact_mod_cast hpos
    apply interp_mono _ hs
    · apply div_nonneg _ (by norm_num)
      apply mul_nonneg (by linarith) hp
    · rw [div_le_div_iff_of_pos_right (by norm_num)]
      exact mul_le_mul_of_nonneg_left hpq (by linarith)
    · rw [div_le_iff (by norm_num)]
      nlinarith

theorem fot_step_eq (sf : SF) (values durations events : List ℚ) :
    (fun (acc : Option ℚ × ℚ) threshold =>
      let groups := thresholdGroups values threshold
      if (uniqueSorted groups).length < 2 then acc
      else
        let p := (calculate_logrank sf durations events groups).2
        match acc.1 with
        | none => (some p, threshold)
        | some m => if p < m then (some p, threshold) else acc)
      = fotStep (fotP sf values durations events) (fotValid values) := by
  funext acc t
  simp only [fotStep, fotP, fotValid]
  by_cases hc : (uniqueSorted (thresholdGroups values t)).length < 2
  · simp [hc]
  · simp [hc]

/-- C4: `find_optimal_threshold` returns the median for fewer than 3
observations; otherwise it scans the 61 candidate thresholds (the 20th
through 80th percentiles, one point apart, in ascending order), skips
candidates whose `value > threshold` split yields a single group, and
returns the first candidate attaining the minimal log-rank p-value, or
the overall median when no candidate is valid; in every case the result
lies between the 20th and 80th percentiles of the values. -/
theorem find_optimal_threshold_props (sf : SF) (values durations events : List ℚ) :
    (values.length < 3 →
      find_optimal_threshold sf values durations events = median values) ∧
      (fotCandidates values).length = 61 ∧
      (3 ≤ values.length →
        find_optimal_threshold sf values durations events
          = (match firstMinBy (fotP sf values durations events) (fotValid values)
              (fotCandidates values) with
             | none => median values
             | some (_, u) => u)) ∧
      percentile values 20 ≤ find_optimal_threshold sf values durations events ∧
      find_optimal_threshold sf values durations events ≤ percentile values 80 := by
  have hmed : median values = percentile values 50 :=
    (percentile_50_eq_median values).symm
  have hmedrange : percentile values 20 ≤ median values ∧
      median values ≤ percentile values 80 := by
    rw [hmed]
    exact ⟨percentile_mono values 20 50 (by norm_num) (by norm_num) (by norm_num),
      percentile_mono values 50 80 (by norm_num) (by norm_num) (by norm_num)⟩
  have hcand : ∀ c ∈ fotCandidates values,
      percentile values 20 ≤ c ∧ c ≤ percentile values 80 := by
    intro c hc
    rw [fotCandidates] at hc
    obtain ⟨i, hi, rfl⟩ := List.mem_map.mp hc
    rw [List.mem_range] at hi
    have hi' : (i : ℚ) ≤ 60 := by exact_mod_cast Nat.lt_succ_iff.mp hi
    constructor
    · exact percentile_mono values 20 (20 + i) (by norm_num) (by linarith [show (0:ℚ) ≤ i by positivity]) (by linarith)
    · exact percentile_mono values (20 + i) 80
        (by linarith [show (0:ℚ) ≤ i by positivity]) (by linarith) (by norm_num)
  have hfold : find_optimal_threshold sf values durations events
      = if values.length < 3 then median values
        else ((fotCandidates values).foldl
          (fotStep (fotP sf values durations events) (fotValid values))
          (none, median values)).2 := by
    rw [find_optimal_threshold, fot_step_eq]
  have hlen : (fotCandidates values).length = 61 := by
    rw [fotCandidates, List.length_map, List.length_range]
  by_cases h3 : values.length < 3
  · rw [hfold, if_pos h3]
    exact ⟨fun _ => rfl, hlen, fun hc => absurd hc (by omega), hmedrange.1, hmedrange.2⟩
  · rw [hfold, if_neg h3, fotStep_foldl_none]
    cases hfm : firstMinBy (fotP sf values durations events) (fotValid values)
        (fotCandidates values) with
    | none =>
      refine ⟨fun hc => absurd hc h3, hlen, fun _ => rfl, ?_, ?_⟩
      · show percentile values 20 ≤ median values
        exact hmedrange.1
      · show median values ≤ percentile values 80
        exact hmedrange.2
    | some mu =>
      obtain ⟨m, u⟩ := mu
      have humem := (firstMinBy_mem _ _ _ _ _ hfm).1
      refine ⟨fun hc => absurd hc h3, hlen, fun _ => rfl, ?_, ?_⟩
      · show percentile values 20 ≤ u
        exact (hcand u humem).1
      · show u ≤ percentile values 80
        exact (hcand u humem).2

/-- Witness for C4: two-observation input (median fallback) and a
five-observation input (candidate scan, result within the 20th–80th
percentile range). -/
theorem find_optimal_threshold_props_witness :
    ([1, 2] : List ℚ).length < 3 ∧
      find_optimal_threshold sfW [1, 2] [1, 2] [1, 1] = median [1, 2] ∧
      (3 ≤ ([5, 6, 6, 2, 4] : List ℚ).length ∧
        percentile [5, 6, 6, 2, 4] 20
            ≤ find_optimal_threshold sfW [5, 6, 6, 2, 4] [5, 6, 6, 2, 4] [1, 0, 1, 1, 1] ∧
          find_optimal_threshold sfW [5, 6, 6, 2, 4] [5, 6, 6, 2, 4] [1, 0, 1, 1, 1]
            ≤ percentile [5, 6, 6, 2, 4] 80) :=
  ⟨by norm_num,
    (find_optimal_threshold_props sfW [1, 2] [1, 2] [1, 1]).1 (by norm_num),
    by norm_num,
    (find_optimal_threshold_props sfW [5, 6, 6, 2, 4] [5, 6, 6, 2, 4] [1, 0, 1, 1, 1]).2.2.2.1,
    (find_optimal_threshold_props sfW [5, 6, 6, 2, 4] [5, 6, 6, 2, 4] [1, 0, 1, 1, 1]).2.2.2.2⟩

/-! ## C8: invariance of `calculate_logrank` under observation reversal
and group relabelling -/

theorem logrankOf_eq_core (sf : SF) (data : List Obs) :
    logrankOf sf data
      = logrankCore sf (groupLabels data) (oMinusE data) (vEntry data) := by
  cases hs : npSolve (Vred data) (OEred data) with
  | none =>
    have hs' : npSolve
        (Matrix.of fun i j : Fin ((groupLabels data).length - 1) =>
          vEntry data ((groupLabels data).getD i 0) ((groupLabels data).getD j 0))
        (fun i : Fin ((groupLabels data).length - 1) =>
          oMinusE data ((groupLabels data).getD i 0)) = none := hs
    rw [logrankOf, logrankCore, hs, hs']
  | some x =>
    have hs' : npSolve
        (Matrix.of fun i j : Fin ((groupLabels data).length - 1) =>
          vEntry data ((groupLabels data).getD i 0) ((groupLabels data).getD j 0))
        (fun i : Fin ((groupLabels data).length - 1) =>
          oMinusE data ((groupLabels data).getD i 0)) = some x := hs
    rw [logrankOf, logrankCore, hs, hs']
    rfl

theorem nEventsAt_perm {data data' : List Obs} (h : data.Perm data') (t : ℚ) :
    nEventsAt data t = nEventsAt data' t := by
  rw [nEventsAt, nEventsAt, ← List.countP_eq_length_filter,
    ← List.countP_eq_length_filter]
  exact h.countP_eq _

theorem nAtRiskAt_perm {data data' : List Obs} (h : data.Perm data') (t : ℚ) :
    nAtRiskAt data t = nAtRiskAt data' t := by
  rw [nAtRiskAt, nAtRiskAt, ← List.countP_eq_length_filter,
    ← List.countP_eq_length_filter]
  exact h.countP_eq _

theorem nGroupAtRisk_perm {data data' : List Obs} (h : data.Perm data') (g t : ℚ) :
    nGroupAtRisk data g t = nGroupAtRisk data' g t := by
  rw [nGroupAtRisk, nGroupAtRisk, ← List.countP_eq_length_filter,
    ← List.countP_eq_length_filter]
  exact h.countP_eq _

theorem observedAt_perm {data data' : List Obs} (h : data.Perm data') (g t : ℚ) :
    observedAt data g t = observedAt data' g t := by
  rw [observedAt, observedAt, ← List.countP_eq_length_filter,
    ← List.countP_eq_length_filter]
  exact h.countP_eq _

theorem eventTimes_perm {data data' : List Obs} (h : data.Perm data') :
    eventTimes data = eventTimes data' := by
  rw [eventTimes, eventTimes]
  exact uniqueSorted_congr ((h.filter _).map _)

theorem groupLabels_perm {data data' : List Obs} (h : data.Perm data') :
    groupLabels data = groupLabels data' := by
  rw [groupLabels, groupLabels]
  exact uniqueSorted_congr (h.map _)

theorem filteredTimes_perm {data data' : List Obs} (h : data.Perm data') :
    filteredTimes data = filteredTimes data' := by
  rw [filteredTimes, filteredTimes, eventTimes_perm h]
  apply List.filter_congr
  intro t _
  rw [nEventsAt_perm h, nAtRiskAt_perm h]

theorem factorAt_perm {data data' : List Obs} (h : data.Perm data') (t : ℚ) :
    factorAt data t = factorAt data' t := by
  rw [factorAt, factorAt, nEventsAt_perm h, nAtRiskAt_perm h]

theorem oMinusE_perm {data data' : List Obs} (h : data.Perm data') (g : ℚ) :
    oMinusE data g = oMinusE data' g := by
  rw [oMinusE, oMinusE, filteredTimes_perm h]
  congr 1
  apply List.map_congr_left
  intro t _
  rw [observedAt_perm h, nEventsAt_perm h, nGroupAtRisk_perm h, nAtRiskAt_perm h]

theorem vEntry_perm {data data' : List Obs} (h : data.Perm data') (g g' : ℚ) :
    vEntry data g g' = vEntry data' g g' := by
  rw [vEntry, vEntry, filteredTimes_perm h]
  congr 1
  apply List.map_congr_left
  intro t _
  rw [nGroupAtRisk_perm h g, nGroupAtRisk_perm h g', nAtRiskAt_perm h,
    factorAt_perm h]

theorem logrankOf_perm (sf : SF) {data data' : List Obs} (h : data.Perm data') :
    logrankOf sf data = logrankOf sf data' := by
  rw [logrankOf_eq_core, logrankOf_eq_core, groupLabels_perm h]
  congr 1
  · funext g
    exact oMinusE_perm h g
  · funext g g'
    exact vEntry_perm h g g'

theorem logrankObs_reverse (durations events groups : List ℚ)
    (h1 : durations.length = events.length)
    (h2 : events.length = groups.length) :
    logrankObs durations.reverse events.reverse groups.reverse
      = (logrankObs durations events groups).reverse := by
  induction durations generalizing events groups with
  | nil =>
    cases events with
    | nil => cases groups <;> rfl
    | cons e es => cases h1
  | cons d ds ih =>
    cases events with
    | nil => cases h1
    | cons e es =>
      cases groups with
      | nil => cases h2
      | cons g gs =>
        simp only [List.length_cons, Nat.succ.injEq] at h1 h2
        have hev : es.reverse.length = gs.reverse.length := by simp [h2]
        have hdv : ds.reverse.length = (es.reverse.zip gs.reverse).length := by
          simp [h1, h2]
        have hih := ih es gs h1 h2
        simp only [logrankObs] at hih ⊢
        rw [List.reverse_cons, List.reverse_cons, List.reverse_cons,
          List.zip_append hev, List.zip_append hdv, List.map_append, hih]
        simp [List.zip_cons_cons]

theorem logrankObs_map_groups (π : ℚ → ℚ) (durations events groups : List ℚ) :
    logrankObs durations events (groups.map π)
      = (logrankObs durations events groups).map (relabelObs π) := by
  induction durations generalizing events groups with
  | nil => rfl
  | cons d ds ih =>
    cases events with
    | nil => rfl
    | cons e es =>
      cases groups with
      | nil => rfl
      | cons g gs =>
        show (⟨d, e, π g⟩ : Obs) :: logrankObs ds es (gs.map π)
            = (⟨d, e, π g⟩ : Obs) :: (logrankObs ds es gs).map (relabelObs π)
        rw [ih es gs]

theorem nEventsAt_relabel (π : ℚ → ℚ) (data : List Obs) (t : ℚ) :
    nEventsAt (data.map (relabelObs π)) t = nEventsAt data t := by
  rw [nEventsAt, nEventsAt, ← List.countP_eq_length_filter,
    ← List.countP_eq_length_filter, List.countP_map]
  rfl

theorem nAtRiskAt_relabel (π : ℚ → ℚ) (data : List Obs) (t : ℚ) :
    nAtRiskAt (data.map (relabelObs π)) t = nAtRiskAt data t := by
  rw [nAtRiskAt, nAtRiskAt, ← List.countP_eq_length_filter,
    ← List.countP_eq_length_filter, List.countP_map]
  rfl

theorem nGroupAtRisk_relabel (π : ℚ → ℚ) (hπ : Function.Injective π)
    (data : List Obs) (g t : ℚ) :
    nGroupAtRisk (data.map (relabelObs π)) (π g) t = nGroupAtRisk data g t := by
  rw [nGroupAtRisk, nGroupAtRisk, ← List.countP_eq_length_filter,
    ← List.countP_eq_length_filter, List.countP_map]
  apply List.countP_congr
  intro o _
  simp [relabelObs, Function.comp_apply, hπ.eq_iff]

theorem observedAt_relabel (π : ℚ → ℚ) (hπ : Function.Injective π)
    (data : List Obs) (g t : ℚ) :
    observedAt (data.map (relabelObs π)) (π g) t = observedAt data g t := by
  rw [observedAt, observedAt, ← List.countP_eq_length_filter,
    ← List.countP_eq_length_filter, List.countP_map]
  apply List.countP_congr
  intro o _
  simp [relabelObs, Function.comp_apply, hπ.eq_iff]

theorem eventTimes_relabel (π : ℚ → ℚ) (data : List Obs) :
    eventTimes (data.map (relabelObs π)) = eventTimes data := by
  rw [eventTimes, eventTimes]
  congr 1
  rw [List.filter_map, List.map_map]
  rfl

theorem filteredTimes_relabel (π : ℚ → ℚ) (data : List Obs) :
    filteredTimes (data.map (relabelObs π)) = filteredTimes data := by
  rw [filteredTimes, filteredTimes, eventTimes_relabel]
  apply List.filter_congr
  intro t _
  rw [nEventsAt_relabel, nAtRiskAt_relabel]

theorem factorAt_relabel (π : ℚ → ℚ) (data : List Obs) (t : ℚ) :
    factorAt (data.map (relabelObs π)) t = factorAt data t := by
  rw [factorAt, factorAt, nEventsAt_relabel, nAtRiskAt_relabel]

theorem oMinusE_relabel (π : ℚ → ℚ) (hπ : Function.Injective π)
    (data : List Obs) (g : ℚ) :
    oMinusE (data.map (relabelObs π)) (π g) = oMinusE data g := by
  rw [oMinusE, oMinusE, filteredTimes_relabel]
  congr 1
  apply List.map_congr_left
  intro t _
  rw [observedAt_relabel π hπ, nEventsAt_relabel, nGroupAtRisk_relabel π hπ,
    nAtRiskAt_relabel]

theorem vEntry_relabel (π : ℚ → ℚ) (hπ : Function.Injective π)
    (data : List Obs) (g g' : ℚ) :
    vEntry (data.map (relabelObs π)) (π g) (π g') = vEntry data g g' := by
  rw [vEntry, vEntry, filteredTimes_relabel]
  congr 1
  apply List.map_congr_left
  intro t _
  rw [nGroupAtRisk_relabel π hπ data g, nGroupAtRisk_relabel π hπ data g',
    nAtRiskAt_relabel, factorAt_relabel]
  simp only [hπ.eq_iff]

theorem groupLabels_relabel_toFinset (π : ℚ → ℚ) (data : List Obs) :
    (groupLabels (data.map (relabelObs π))).toFinset
      = (groupLabels data).toFinset.image π := by
  ext a
  simp only [List.mem_toFinset, Finset.mem_image, groupLabels, mem_uniqueSorted,
    List.map_map, List.mem_map, Function.comp_apply, relabelObs]
  constructor
  · rintro ⟨o, ho, rfl⟩
    exact ⟨o.group, ⟨o, ho, rfl⟩, rfl⟩
  · rintro ⟨b, ⟨o, ho, rfl⟩, rfl⟩
    exact ⟨o, ho, rfl⟩

theorem groupLabels_relabel_length (π : ℚ → ℚ) (hπ : Function.Injective π)
    (data : List Obs) :
    (groupLabels (data.map (relabelObs π))).length = (groupLabels data).length := by
  have h1 : (groupLabels (data.map (relabelObs π))).Nodup := uniqueSorted_nodup _
  have h2 : (groupLabels data).Nodup := uniqueSorted_nodup _
  rw [← List.toFinset_card_of_nodup h1, ← List.toFinset_card_of_nodup h2,
    groupLabels_relabel_toFinset, Finset.card_image_of_injective _ hπ]

theorem countP_partition (data : List Obs) (S : Finset ℚ) (P : Obs → Bool) :
    ∑ g ∈ S, data.countP (fun o => decide (o.group = g) && P o)
      = data.countP (fun o => decide (o.group ∈ S) && P o) := by
  induction data with
  | nil => simp
  | cons o data ih =>
    simp only [List.countP_cons, Finset.sum_add_distrib, ih]
    congr 1
    by_cases hP : P o = true
    · simp only [hP, Bool.and_true, decide_eq_true_eq]
      simp [Finset.sum_ite_eq]
    · simp [hP]

theorem mem_groupLabels_of_mem {data : List Obs} {o : Obs} (ho : o ∈ data) :
    o.group ∈ groupLabels data :=
  mem_uniqueSorted.mpr (List.mem_map.mpr ⟨o, ho, rfl⟩)

theorem sum_nGroupAtRisk (data : List Obs) (t : ℚ) :
    ∑ g ∈ (groupLabels data).toFinset, nGroupAtRisk data g t
      = nAtRiskAt data t := by
  have h : ∀ g, nGroupAtRisk data g t
      = data.countP (fun o => decide (o.group = g) && decide (t ≤ o.duration)) := by
    intro g
    rw [nGroupAtRisk, ← List.countP_eq_length_filter]
    apply List.countP_congr
    intro o _
    simp [Bool.decide_and]
  rw [Finset.sum_congr rfl (fun g _ => h g), countP_partition, nAtRiskAt,
    ← List.countP_eq_length_filter]
  apply List.countP_congr
  intro o ho
  have hmem : o.group ∈ (groupLabels data).toFinset :=
    List.mem_toFinset.mpr (mem_groupLabels_of_mem ho)
  simp [hmem]

theorem sum_observedAt (data : List Obs) (t : ℚ) :
    ∑ g ∈ (groupLabels data).toFinset, observedAt data g t
      = nEventsAt data t := by
  have h : ∀ g, observedAt data g t
      = data.countP (fun o =>
          decide (o.group = g) && decide (o.duration = t ∧ o.event = 1)) := by
    intro g
    rw [observedAt, ← List.countP_eq_length_filter]
    apply List.countP_congr
    intro o _
    simp [Bool.decide_and]
  rw [Finset.sum_congr rfl (fun g _ => h g), countP_partition, nEventsAt,
    ← List.countP_eq_length_filter]
  apply List.countP_congr
  intro o ho
  have hmem : o.group ∈ (groupLabels data).toFinset :=
    List.mem_toFinset.mpr (mem_groupLabels_of_mem ho)
  simp [hmem]

theorem finset_sum_list_map_sum (S : Finset ℚ) (ts : List ℚ) (F : ℚ → ℚ → ℚ) :
    ∑ g ∈ S, (ts.map (F g)).sum = (ts.map (fun t => ∑ g ∈ S, F g t)).sum := by
  induction ts with
  | nil => simp
  | cons t ts ih => simp [List.map_cons, List.sum_cons, Finset.sum_add_distrib, ih]

theorem vEntry_symm (data : List Obs) (g g' : ℚ) :
    vEntry data g g' = vEntry data g' g := by
  simp only [vEntry]
  congr 1
  apply List.map_congr_left
  intro t _
  by_cases h : g = g'
  · subst h
    rfl
  · rw [if_neg h, if_neg (Ne.symm h)]
    ring

theorem vEntry_row_sum (data : List Obs) (g : ℚ)
    (hg : g ∈ (groupLabels data).toFinset) :
    ∑ g' ∈ (groupLabels data).toFinset, vEntry data g g' = 0 := by
  simp only [vEntry]
  rw [finset_sum_list_map_sum]
  apply List.sum_eq_zero
  intro x hx
  obtain ⟨t, ht, rfl⟩ := List.mem_map.mp hx
  have hsum : (nGroupAtRisk data g t : ℚ)
      + ∑ g' ∈ (groupLabels data).toFinset.erase g, (nGroupAtRisk data g' t : ℚ)
      = (nAtRiskAt data t : ℚ) := by
    have hcast : ∑ g' ∈ (groupLabels data).toFinset, (nGroupAtRisk data g' t : ℚ)
        = (nAtRiskAt data t : ℚ) := by
      exact_mod_cast sum_nGroupAtRisk data t
    rw [← hcast]
    exact Finset.add_sum_erase _ (fun g' => (nGroupAtRisk data g' t : ℚ)) hg
  rw [← Finset.add_sum_erase _ _ hg, if_pos rfl]
  have herase : ∀ g' ∈ (groupLabels data).toFinset.erase g,
      (if g = g' then
        (nGroupAtRisk data g t : ℚ) *
          ((nAtRiskAt data t : ℚ) - (nGroupAtRisk data g t : ℚ)) * factorAt data t
      else
        -(nGroupAtRisk data g t : ℚ) * (nGroupAtRisk data g' t : ℚ) * factorAt data t)
      = -(nGroupAtRisk data g t : ℚ) * factorAt data t * (nGroupAtRisk data g' t : ℚ) := by
    intro g' hg'
    rw [if_neg (Ne.symm (Finset.mem_erase.mp hg').1)]
    ring
  rw [Finset.sum_congr rfl herase, ← Finset.mul_sum]
  have he : ∑ g' ∈ (groupLabels data).toFinset.erase g, (nGroupAtRisk data g' t : ℚ)
      = (nAtRiskAt data t : ℚ) - (nGroupAtRisk data g t : ℚ) := by
    linarith
  rw [he]
  ring

theorem oMinusE_sum (data : List Obs) :
    ∑ g ∈ (groupLabels data).toFinset, oMinusE data g = 0 := by
  simp only [oMinusE]
  rw [finset_sum_list_map_sum]
  apply List.sum_eq_zero
  intro x hx
  obtain ⟨t, ht, rfl⟩ := List.mem_map.mp hx
  have htE : t ∈ eventTimes data := by
    rw [filteredTimes_eq_eventTimes] at ht
    exact ht
  have hn : (0 : ℚ) < (nAtRiskAt data t : ℚ) := by
    exact_mod_cast nAtRiskAt_pos_of_mem htE
  rw [Finset.sum_sub_distrib]
  have h1 : ∑ g ∈ (groupLabels data).toFinset, (observedAt data g t : ℚ)
      = (nEventsAt data t : ℚ) := by
    exact_mod_cast sum_observedAt data t
  have h2 : ∑ g ∈ (groupLabels data).toFinset,
      (nEventsAt data t : ℚ) * (nGroupAtRisk data g t : ℚ) / (nAtRiskAt data t : ℚ)
      = (nEventsAt data t : ℚ) := by
    have hcong : ∀ g ∈ (groupLabels data).toFinset,
        (nEventsAt data t : ℚ) * (nGroupAtRisk data g t : ℚ) / (nAtRiskAt data t : ℚ)
        = ((nEventsAt data t : ℚ) / (nAtRiskAt data t : ℚ)) * (nGroupAtRisk data g t : ℚ) := by
      intro g _
      ring
    have h3 : ∑ g ∈ (groupLabels data).toFinset, (nGroupAtRisk data g t : ℚ)
        = (nAtRiskAt data t : ℚ) := by
      exact_mod_cast sum_nGroupAtRisk data t
    rw [Finset.sum_congr rfl hcong, ← Finset.mul_sum, h3, div_mul_cancel₀]
    exact ne_of_gt hn
  rw [h1, h2, sub_self]

theorem logrank_stat_unique (S : Finset ℚ) (W : ℚ → ℚ → ℚ) (r : ℚ → ℚ)
    (hsymm : ∀ a b, W a b = W b a) (z z' : ℚ → ℚ)
    (hz : ∀ a ∈ S, ∑ b ∈ S, W a b * z b = r a)
    (hz' : ∀ a ∈ S, ∑ b ∈ S, W a b * z' b = r a) :
    ∑ a ∈ S, r a * z a = ∑ a ∈ S, r a * z' a := by
  have key : ∑ a ∈ S, r a * (z a - z' a) = 0 := by
    have h1 : ∀ a ∈ S, r a * (z a - z' a)
        = ∑ b ∈ S, W a b * z b * (z a - z' a) := by
      intro a ha
      rw [← Finset.sum_mul, hz a ha]
    rw [Finset.sum_congr rfl h1, Finset.sum_comm]
    have h2 : ∀ b ∈ S, ∑ a ∈ S, W a b * z b * (z a - z' a) = 0 := by
      intro b hb
      have h3 : ∀ a ∈ S, W a b * z b * (z a - z' a)
          = z b * (W b a * z a - W b a * z' a) := by
        intro a _
        rw [hsymm a b]
        ring
      rw [Finset.sum_congr rfl h3, ← Finset.mul_sum, Finset.sum_sub_distrib,
        hz b hb, hz' b hb, sub_self, mul_zero]
    rw [Finset.sum_congr rfl h2, Finset.sum_const_zero]
  have expand : ∀ a ∈ S, r a * (z a - z' a) = r a * z a - r a * z' a :=
    fun a _ => by ring
  rw [Finset.sum_congr rfl expand, Finset.sum_sub_distrib] at key
  linarith

theorem kernel_shift (S : Finset ℚ) (W : ℚ → ℚ → ℚ)
    (hrow : ∀ a ∈ S, ∑ b ∈ S, W a b = 0)
    (d₁ d₂ : ℚ) (hd₁ : d₁ ∈ S) (hd₂ : d₂ ∈ S)
    (w : ℚ → ℚ) (hw0 : w d₁ = 0) (hwne : ∃ a ∈ S, w a ≠ 0)
    (hker : ∀ a ∈ S, ∑ b ∈ S, W a b * w b = 0) :
    ∃ w' : ℚ → ℚ, w' d₂ = 0 ∧ (∃ a ∈ S, w' a ≠ 0) ∧
      ∀ a ∈ S, ∑ b ∈ S, W a b * w' b = 0 := by
  refine ⟨fun b => w b - w d₂, sub_self _, ?_, ?_⟩
  · by_cases h : w d₂ = 0
    · obtain ⟨a, ha, hne⟩ := hwne
      exact ⟨a, ha, by simp only [h, sub_zero]; exact hne⟩
    · exact ⟨d₁, hd₁, by simp only [hw0, zero_sub]; exact neg_ne_zero.mpr h⟩
  · intro a ha
    have hsplit : ∀ b ∈ S, W a b * (w b - w d₂) = W a b * w b - w d₂ * W a b :=
      fun b _ => by ring
    rw [Finset.sum_congr rfl hsplit, Finset.sum_sub_distrib, hker a ha,
      ← Finset.mul_sum, hrow a ha, mul_zero, sub_zero]

theorem kernel_transport (S : Finset ℚ) (W W' : ℚ → ℚ → ℚ) (π : ℚ → ℚ)
    (hπ : Function.Injective π)
    (hW : ∀ a ∈ S, ∀ b ∈ S, W' (π a) (π b) = W a b)
    (d : ℚ) (hd : d ∈ S) :
    (∃ w : ℚ → ℚ, w (π d) = 0 ∧ (∃ g ∈ S.image π, w g ≠ 0) ∧
        ∀ a ∈ S.image π, ∑ b ∈ S.image π, W' a b * w b = 0) ↔
      (∃ w : ℚ → ℚ, w d = 0 ∧ (∃ g ∈ S, w g ≠ 0) ∧
        ∀ a ∈ S, ∑ b ∈ S, W a b * w b = 0) := by
  have hinj : ∀ x ∈ S, ∀ y ∈ S, π x = π y → x = y := fun x _ y _ h => hπ h
  constructor
  · rintro ⟨w, hw0, ⟨g', hg', hgne⟩, hker⟩
    refine ⟨fun b => w (π b), hw0, ?_, ?_⟩
    · obtain ⟨a, ha, rfl⟩ := Finset.mem_image.mp hg'
      exact ⟨a, ha, hgne⟩
    · intro a ha
      have h2 := hker (π a) (Finset.mem_image_of_mem π ha)
      rw [Finset.sum_image hinj] at h2
      calc ∑ b ∈ S, W a b * w (π b)
          = ∑ b ∈ S, W' (π a) (π b) * w (π b) :=
            Finset.sum_congr rfl (fun b hb => by rw [hW a ha b hb])
        _ = 0 := h2
  · rintro ⟨w, hw0, ⟨g, hg, hgne⟩, hker⟩
    classical
    refine ⟨Function.extend π w 0, ?_, ?_, ?_⟩
    · rw [hπ.extend_apply]
      exact hw0
    · exact ⟨π g, Finset.mem_image_of_mem π hg, by
        rw [hπ.extend_apply]; exact hgne⟩
    · intro a' ha'
      obtain ⟨a, ha, rfl⟩ := Finset.mem_image.mp ha'
      rw [Finset.sum_image hinj]
      calc ∑ b ∈ S, W' (π a) (π b) * Function.extend π w 0 (π b)
          = ∑ b ∈ S, W a b * w b :=
            Finset.sum_congr rfl (fun b hb => by
              rw [hW a ha b hb, hπ.extend_apply])
        _ = 0 := hker a ha

theorem list_sum_range_getD (l : List ℚ) (f : ℚ → ℚ) :
    ∑ i ∈ Finset.range l.length, f (l.getD i 0) = (l.map f).sum := by
  induction l with
  | nil => simp
  | cons a l ih =>
    rw [List.length_cons, Finset.sum_range_succ', List.map_cons, List.sum_cons]
    simp only [List.getD_cons_succ, List.getD_cons_zero]
    rw [ih]
    ring

theorem getLastD_eq_getLast (L : List ℚ) (hL : L ≠ []) :
    L.getLastD 0 = L.getLast hL := by
  rw [List.getLastD_eq_getLast?, List.getLast?_eq_getLast L hL]
  rfl

theorem getLast_not_mem_dropLast (L : List ℚ) (hL : L ≠ []) (hnd : L.Nodup) :
    L.getLast hL ∉ L.dropLast := by
  intro hmem
  have happ : L.dropLast ++ [L.getLast hL] = L := List.dropLast_append_getLast hL
  have hnd' := hnd
  rw [← happ, List.nodup_append] at hnd'
  exact hnd'.2.2 hmem (List.mem_singleton_self _)

theorem dropLast_toFinset (L : List ℚ) (hL : L ≠ []) (hnd : L.Nodup) :
    L.dropLast.toFinset = L.toFinset.erase (L.getLastD 0) := by
  have happ : L.dropLast ++ [L.getLast hL] = L := List.dropLast_append_getLast hL
  ext a
  simp only [List.mem_toFinset, Finset.mem_erase, getLastD_eq_getLast L hL]
  constructor
  · intro ha
    refine ⟨fun heq => getLast_not_mem_dropLast L hL hnd (heq ▸ ha), ?_⟩
    exact (List.dropLast_sublist L).subset ha
  · rintro ⟨hne, ha⟩
    rw [← happ, List.mem_append] at ha
    rcases ha with ha | ha
    · exact ha
    · exact absurd (List.mem_singleton.mp ha) hne

theorem sum_fin_label (L : List ℚ) (hL : L ≠ []) (hnd : L.Nodup) (f : ℚ → ℚ) :
    ∑ i : Fin (L.length - 1), f (L.getD i 0)
      = ∑ g ∈ L.toFinset.erase (L.getLastD 0), f g := by
  rw [Fin.sum_univ_eq_sum_range (fun i => f (L.getD i 0))]
  have hlen : L.length - 1 = L.dropLast.length := (List.length_dropLast L).symm
  rw [hlen]
  have hcong : ∀ i ∈ Finset.range L.dropLast.length,
      f (L.getD i 0) = f (L.dropLast.getD i 0) := by
    intro i hi
    rw [Finset.mem_range] at hi
    have hi' : i < L.length := lt_of_lt_of_le hi (by
      rw [List.length_dropLast]
      omega)
    rw [List.getD_eq_getElem L 0 hi', List.getD_eq_getElem L.dropLast 0 hi,
      List.getElem_dropLast]
  rw [Finset.sum_congr rfl hcong, list_sum_range_getD,
    ← List.sum_toFinset f ((List.dropLast_sublist L).nodup hnd),
    dropLast_toFinset L hL hnd]

theorem groupLabels_ne_nil {data : List Obs} (h2 : 2 ≤ nGroups data) :
    groupLabels data ≠ [] := by
  intro h
  rw [nGroups, h] at h2
  simp at h2

theorem getD_mem_groupLabels {data : List Obs} {i : ℕ}
    (hi : i < (groupLabels data).length) :
    (groupLabels data).getD i 0 ∈ (groupLabels data).toFinset := by
  rw [List.getD_eq_getElem _ 0 hi]
  exact List.mem_toFinset.mpr (List.getElem_mem hi)

theorem getLastD_mem_toFinset (L : List ℚ) (hL : L ≠ []) :
    L.getLastD 0 ∈ L.toFinset := by
  rw [getLastD_eq_getLast L hL]
  exact List.mem_toFinset.mpr (List.getLast_mem hL)

theorem getD_ne_getLastD (L : List ℚ) (hnd : L.Nodup) (i : ℕ)
    (hi : i < L.length - 1) : L.getD i 0 ≠ L.getLastD 0 := by
  have hL : L ≠ [] := by
    intro h
    rw [h] at hi
    simp at hi
  have hi' : i < L.length := by omega
  rw [List.getD_eq_getElem L 0 hi', getLastD_eq_getLast L hL,
    List.getLast_eq_getElem L hL]
  intro heq
  have := hnd.getElem_inj_iff.mp heq
  omega

theorem exists_getD_of_mem_erase (L : List ℚ) (hL : L ≠ []) (hnd : L.Nodup)
    {a : ℚ} (ha : a ∈ L.toFinset.erase (L.getLastD 0)) :
    ∃ i, i < L.length - 1 ∧ L.getD i 0 = a := by
  rw [← dropLast_toFinset L hL hnd, List.mem_toFinset] at ha
  obtain ⟨i, hi, hgi⟩ := List.mem_iff_getElem.mp ha
  have hi1 : i < L.length - 1 := by
    rw [List.length_dropLast] at hi
    exact hi
  have hi2 : i < L.length := by omega
  refine ⟨i, hi1, ?_⟩
  rw [List.getD_eq_getElem L 0 hi2]
  rw [List.getElem_dropLast] at hgi
  exact hgi

theorem vred_singular_iff (data : List Obs) (h2 : 2 ≤ nGroups data) :
    (Vred data).det = 0 ↔
      ∃ w : ℚ → ℚ, w ((groupLabels data).getLastD 0) = 0 ∧
        (∃ g ∈ (groupLabels data).toFinset, w g ≠ 0) ∧
        ∀ a ∈ (groupLabels data).toFinset,
          ∑ b ∈ (groupLabels data).toFinset, vEntry data a b * w b = 0 := by
  have hLne : groupLabels data ≠ [] := groupLabels_ne_nil h2
  have hnd : (groupLabels data).Nodup := uniqueSorted_nodup _
  have hlastmem : (groupLabels data).getLastD 0 ∈ (groupLabels data).toFinset :=
    getLastD_mem_toFinset _ hLne
  have heqlen : nGroups data = (groupLabels data).length := rfl
  rw [← Matrix.exists_mulVec_eq_zero_iff]
  constructor
  · rintro ⟨v, hv, hmul⟩
    classical
    have hembinj : Function.Injective
        (fun i : Fin (nGroups data - 1) => (groupLabels data).getD i 0) := by
      intro i j hij
      have hi : (i : ℕ) < (groupLabels data).length := by
        have := i.isLt
        omega
      have hj : (j : ℕ) < (groupLabels data).length := by
        have := j.isLt
        omega
      simp only [List.getD_eq_getElem _ 0 hi, List.getD_eq_getElem _ 0 hj] at hij
      exact Fin.ext (hnd.getElem_inj_iff.mp hij)
    set w := Function.extend
      (fun i : Fin (nGroups data - 1) => (groupLabels data).getD i 0) v 0 with hwdef
    have hwemb : ∀ i : Fin (nGroups data - 1),
        w ((groupLabels data).getD i 0) = v i :=
      fun i => hembinj.extend_apply v 0 i
    have hwlast : w ((groupLabels data).getLastD 0) = 0 := by
      rw [hwdef, Function.extend_apply']
      · rfl
      · rintro ⟨i, hi⟩
        exact getD_ne_getLastD _ hnd i i.isLt hi
    have hrow0 : ∀ a ∈ (groupLabels data).toFinset.erase
        ((groupLabels data).getLastD 0),
        ∑ b ∈ (groupLabels data).toFinset, vEntry data a b * w b = 0 := by
      intro a ha
      obtain ⟨i₀, hi₀, hgi₀⟩ := exists_getD_of_mem_erase _ hLne hnd ha
      have hsplit : ∑ b ∈ (groupLabels data).toFinset, vEntry data a b * w b
          = vEntry data a ((groupLabels data).getLastD 0)
              * w ((groupLabels data).getLastD 0)
            + ∑ b ∈ (groupLabels data).toFinset.erase
                ((groupLabels data).getLastD 0), vEntry data a b * w b :=
        (Finset.add_sum_erase _ (fun b => vEntry data a b * w b) hlastmem).symm
      have hfin : ∑ j : Fin (nGroups data - 1),
          vEntry data a ((groupLabels data).getD j 0)
            * w ((groupLabels data).getD j 0)
          = ∑ b ∈ (groupLabels data).toFinset.erase
              ((groupLabels data).getLastD 0), vEntry data a b * w b :=
        sum_fin_label (groupLabels data) hLne hnd
          (fun b => vEntry data a b * w b)
      have hmv : ∑ j : Fin (nGroups data - 1),
          vEntry data a ((groupLabels data).getD j 0)
            * w ((groupLabels data).getD j 0) = 0 := by
        have hrow := congrFun hmul ⟨i₀, hi₀⟩
        have hexpand : (Vred data).mulVec v ⟨i₀, hi₀⟩
            = ∑ j : Fin (nGroups data - 1),
                vEntry data ((groupLabels data).getD i₀ 0)
                  ((groupLabels data).getD j 0) * v j := rfl
        rw [hexpand, hgi₀] at hrow
        have hconv : ∀ j : Fin (nGroups data - 1),
            vEntry data a ((groupLabels data).getD j 0)
              * w ((groupLabels data).getD j 0)
            = vEntry data a ((groupLabels data).getD j 0) * v j := by
          intro j
          rw [hwemb j]
        rw [Finset.sum_congr rfl (fun j _ => hconv j)]
        simpa using hrow
      rw [hsplit, hwlast, mul_zero, zero_add, ← hfin]
      exact hmv
    have htot : ∑ a ∈ (groupLabels data).toFinset,
        (∑ b ∈ (groupLabels data).toFinset, vEntry data a b * w b) = 0 := by
      rw [Finset.sum_comm]
      apply Finset.sum_eq_zero
      intro b hb
      have hcol : ∀ a ∈ (groupLabels data).toFinset,
          vEntry data a b * w b = w b * vEntry data b a := by
        intro a _
        rw [vEntry_symm data a b]
        ring
      rw [Finset.sum_congr rfl hcol, ← Finset.mul_sum, vEntry_row_sum data b hb,
        mul_zero]
    have hrowlast : ∑ b ∈ (groupLabels data).toFinset,
        vEntry data ((groupLabels data).getLastD 0) b * w b = 0 := by
      have hsplit := (Finset.add_sum_erase _
        (fun a => ∑ b ∈ (groupLabels data).toFinset, vEntry data a b * w b)
        hlastmem).symm
      have herase0 : ∑ a ∈ (groupLabels data).toFinset.erase
          ((groupLabels data).getLastD 0),
          (∑ b ∈ (groupLabels data).toFinset, vEntry data a b * w b) = 0 :=
        Finset.sum_eq_zero hrow0
      have h := htot
      rw [hsplit, herase0, add_zero] at h
      exact h
    refine ⟨w, hwlast, ?_, ?_⟩
    · obtain ⟨i, hvi⟩ := Function.ne_iff.mp hv
      refine ⟨(groupLabels data).getD i 0, ?_, ?_⟩
      · exact getD_mem_groupLabels (by have := i.isLt; omega)
      · rw [hwemb i]
        simpa using hvi
    · intro a ha
      by_cases hae : a = (groupLabels data).getLastD 0
      · rw [hae]
        exact hrowlast
      · exact hrow0 a (Finset.mem_erase.mpr ⟨hae, ha⟩)
  · rintro ⟨w, hwlast, ⟨g, hg, hgne⟩, hker⟩
    have hgne_last : g ≠ (groupLabels data).getLastD 0 := by
      intro h
      rw [h] at hgne
      exact hgne hwlast
    obtain ⟨i₀, hi₀, hgi₀⟩ := exists_getD_of_mem_erase _ hLne hnd
      (Finset.mem_erase.mpr ⟨hgne_last, hg⟩)
    refine ⟨fun i : Fin (nGroups data - 1) =>
      w ((groupLabels data).getD i 0), ?_, ?_⟩
    · intro h0
      have hz : w ((groupLabels data).getD i₀ 0) = 0 := by
        have := congrFun h0 ⟨i₀, hi₀⟩
        simpa using this
      rw [hgi₀] at hz
      exact hgne hz
    · funext i
      have hmem_i : (groupLabels data).getD i 0 ∈ (groupLabels data).toFinset :=
        getD_mem_groupLabels (by have := i.isLt; omega)
      have hsplit : ∑ b ∈ (groupLabels data).toFinset,
          vEntry data ((groupLabels data).getD i 0) b * w b
          = vEntry data ((groupLabels data).getD i 0)
              ((groupLabels data).getLastD 0) * w ((groupLabels data).getLastD 0)
            + ∑ b ∈ (groupLabels data).toFinset.erase
                ((groupLabels data).getLastD 0),
                vEntry data ((groupLabels data).getD i 0) b * w b :=
        (Finset.add_sum_erase _
          (fun b => vEntry data ((groupLabels data).getD i 0) b * w b)
          hlastmem).symm
      have hfin : ∑ j : Fin (nGroups data - 1),
          vEntry data ((groupLabels data).getD i 0) ((groupLabels data).getD j 0)
            * w ((groupLabels data).getD j 0)
          = ∑ b ∈ (groupLabels data).toFinset.erase
              ((groupLabels data).getLastD 0),
              vEntry data ((groupLabels data).getD i 0) b * w b :=
        sum_fin_label (groupLabels data) hLne hnd
          (fun b => vEntry data ((groupLabels data).getD i 0) b * w b)
      show ∑ j : Fin (nGroups data - 1),
          vEntry data ((groupLabels data).getD i 0) ((groupLabels data).getD j 0)
            * w ((groupLabels data).getD j 0) = 0
      rw [hfin]
      have hk := hker _ hmem_i
      rw [hsplit, hwlast, mul_zero, zero_add] at hk
      exact hk

theorem npSolve_sound {n : ℕ} (A : Matrix (Fin n) (Fin n) ℚ) (b : Fin n → ℚ)
    (x : Fin n → ℚ) (hx : npSolve A b = some x) :
    A.mulVec x = b ∧ A.det ≠ 0 := by
  rw [npSolve] at hx
  by_cases h : A.det = 0
  · rw [if_pos h] at hx
    cases hx
  · rw [if_neg h] at hx
    refine ⟨?_, h⟩
    have hxeq : x = fun i => (A.updateColumn i b).det / A.det :=
      (Option.some.inj hx).symm
    have hc : (fun i => (A.updateColumn i b).det / A.det)
        = (A.det)⁻¹ • Matrix.cramer A b := by
      funext i
      rw [Pi.smul_apply, Matrix.cramer_apply, smul_eq_mul, div_eq_inv_mul]
    rw [hxeq, hc, Matrix.mulVec_smul, Matrix.mulVec_cramer, smul_smul,
      inv_mul_cancel₀ h, one_smul]

theorem vred_solution_extend (data : List Obs) (h2 : 2 ≤ nGroups data)
    (x : Fin (nGroups data - 1) → ℚ)
    (hx : (Vred data).mulVec x = OEred data) :
    ∃ z : ℚ → ℚ,
      (∀ a ∈ (groupLabels data).toFinset,
        ∑ b ∈ (groupLabels data).toFinset, vEntry data a b * z b
          = oMinusE data a) ∧
      ∑ i : Fin (nGroups data - 1), OEred data i * x i
        = ∑ g ∈ (groupLabels data).toFinset, oMinusE data g * z g := by
  classical
  have hLne : groupLabels data ≠ [] := groupLabels_ne_nil h2
  have hnd : (groupLabels data).Nodup := uniqueSorted_nodup _
  have hlastmem : (groupLabels data).getLastD 0 ∈ (groupLabels data).toFinset :=
    getLastD_mem_toFinset _ hLne
  have heqlen : nGroups data = (groupLabels data).length := rfl
  have hembinj : Function.Injective
      (fun i : Fin (nGroups data - 1) => (groupLabels data).getD i 0) := by
    intro i j hij
    have hi : (i : ℕ) < (groupLabels data).length := by
      have := i.isLt
      omega
    have hj : (j : ℕ) < (groupLabels data).length := by
      have := j.isLt
      omega
    simp only [List.getD_eq_getElem _ 0 hi, List.getD_eq_getElem _ 0 hj] at hij
    exact Fin.ext (hnd.getElem_inj_iff.mp hij)
  set z := Function.extend
    (fun i : Fin (nGroups data - 1) => (groupLabels data).getD i 0) x 0 with hzdef
  have hzemb : ∀ i : Fin (nGroups data - 1),
      z ((groupLabels data).getD i 0) = x i :=
    fun i => hembinj.extend_apply x 0 i
  have hzlast : z ((groupLabels data).getLastD 0) = 0 := by
    rw [hzdef, Function.extend_apply']
    · rfl
    · rintro ⟨i, hi⟩
      exact getD_ne_getLastD _ hnd i i.isLt hi
  have hrow0 : ∀ a ∈ (groupLabels data).toFinset.erase
      ((groupLabels data).getLastD 0),
      ∑ b ∈ (groupLabels data).toFinset, vEntry data a b * z b
        = oMinusE data a := by
    intro a ha
    obtain ⟨i₀, hi₀, hgi₀⟩ := exists_getD_of_mem_erase _ hLne hnd ha
    have hsplit : ∑ b ∈ (groupLabels data).toFinset, vEntry data a b * z b
        = vEntry data a ((groupLabels data).getLastD 0)
            * z ((groupLabels data).getLastD 0)
          + ∑ b ∈ (groupLabels data).toFinset.erase
              ((groupLabels data).getLastD 0), vEntry data a b * z b :=
      (Finset.add_sum_erase _ (fun b => vEntry data a b * z b) hlastmem).symm
    have hfin : ∑ j : Fin (nGroups data - 1),
        vEntry data a ((groupLabels data).getD j 0)
          * z ((groupLabels data).getD j 0)
        = ∑ b ∈ (groupLabels data).toFinset.erase
            ((groupLabels data).getLastD 0), vEntry data a b * z b :=
      sum_fin_label (groupLabels data) hLne hnd
        (fun b => vEntry data a b * z b)
    have hmv : ∑ j : Fin (nGroups data - 1),
        vEntry data a ((groupLabels data).getD j 0)
          * z ((groupLabels data).getD j 0) = oMinusE data a := by
      have hrow := congrFun hx ⟨i₀, hi₀⟩
      have hexpand : (Vred data).mulVec x ⟨i₀, hi₀⟩
          = ∑ j : Fin (nGroups data - 1),
              vEntry data ((groupLabels data).getD i₀ 0)
                ((groupLabels data).getD j 0) * x j := rfl
      have hrhs : OEred data ⟨i₀, hi₀⟩ = oMinusE data a := by
        rw [OEred]
        show oMinusE data ((groupLabels data).getD i₀ 0) = oMinusE data a
        rw [hgi₀]
      rw [hexpand, hgi₀, hrhs] at hrow
      have hconv : ∀ j : Fin (nGroups data - 1),
          vEntry data a ((groupLabels data).getD j 0)
            * z ((groupLabels data).getD j 0)
          = vEntry data a ((groupLabels data).getD j 0) * x j := by
        intro j
        rw [hzemb j]
      rw [Finset.sum_congr rfl (fun j _ => hconv j)]
      exact hrow
    rw [hsplit, hzlast, mul_zero, zero_add, ← hfin]
    exact hmv
  have hrowlast : ∑ b ∈ (groupLabels data).toFinset,
      vEntry data ((groupLabels data).getLastD 0) b * z b
        = oMinusE data ((groupLabels data).getLastD 0) := by
    have htot : ∑ a ∈ (groupLabels data).toFinset,
        (∑ b ∈ (groupLabels data).toFinset, vEntry data a b * z b) = 0 := by
      rw [Finset.sum_comm]
      apply Finset.sum_eq_zero
      intro b hb
      have hcol : ∀ a ∈ (groupLabels data).toFinset,
          vEntry data a b * z b = z b * vEntry data b a := by
        intro a _
        rw [vEntry_symm data a b]
        ring
      rw [Finset.sum_congr rfl hcol, ← Finset.mul_sum, vEntry_row_sum data b hb,
        mul_zero]
    have hrsum : ∑ a ∈ (groupLabels data).toFinset, oMinusE data a = 0 :=
      oMinusE_sum data
    have hsplit1 := (Finset.add_sum_erase _
      (fun a => ∑ b ∈ (groupLabels data).toFinset, vEntry data a b * z b)
      hlastmem).symm
    have hsplit2 := (Finset.add_sum_erase _ (fun a => oMinusE data a)
      hlastmem).symm
    have herase : ∑ a ∈ (groupLabels data).toFinset.erase
        ((groupLabels data).getLastD 0),
        (∑ b ∈ (groupLabels data).toFinset, vEntry data a b * z b)
        = ∑ a ∈ (groupLabels data).toFinset.erase
            ((groupLabels data).getLastD 0), oMinusE data a :=
      Finset.sum_congr rfl hrow0
    rw [hsplit1, herase] at htot
    rw [hsplit2] at hrsum
    linarith
  have hstat : ∑ i : Fin (nGroups data - 1), OEred data i * x i
      = ∑ g ∈ (groupLabels data).toFinset, oMinusE data g * z g := by
    have hconv : ∀ i : Fin (nGroups data - 1),
        OEred data i * x i
        = oMinusE data ((groupLabels data).getD i 0)
            * z ((groupLabels data).getD i 0) := by
      intro i
      rw [hzemb i]
      rfl
    rw [Finset.sum_congr rfl (fun i _ => hconv i)]
    have hfin : ∑ i : Fin (nGroups data - 1),
        oMinusE data ((groupLabels data).getD i 0)
          * z ((groupLabels data).getD i 0)
        = ∑ g ∈ (groupLabels data).toFinset.erase
            ((groupLabels data).getLastD 0), oMinusE data g * z g :=
      sum_fin_label (groupLabels data) hLne hnd
        (fun g => oMinusE data g * z g)
    rw [hfin, ← Finset.add_sum_erase _ (fun g => oMinusE data g * z g) hlastmem,
      hzlast, mul_zero, zero_add]
  refine ⟨z, ?_, hstat⟩
  intro a ha
  by_cases hae : a = (groupLabels data).getLastD 0
  · rw [hae]
    exact hrowlast
  · exact hrow0 a (Finset.mem_erase.mpr ⟨hae, ha⟩)

theorem logrankOf_small (sf : SF) (data : List Obs) (h : nGroups data ≤ 1) :
    logrankOf sf data = (0, sf 0 0) := by
  have h0 : nGroups data - 1 = 0 := by omega
  haveI hempty : IsEmpty (Fin (nGroups data - 1)) := by
    rw [h0]
    exact inferInstance
  have hdet : (Vred data).det = 1 := Matrix.det_isEmpty
  have hne : ¬(Vred data).det = 0 := by
    rw [hdet]
    norm_num
  cases hs : npSolve (Vred data) (OEred data) with
  | none =>
    exfalso
    rw [npSolve, if_neg hne] at hs
    cases hs
  | some x =>
    rw [logrankOf, hs]
    have huniv : (Finset.univ : Finset (Fin (nGroups data - 1))) = ∅ :=
      Finset.univ_eq_empty
    simp only [huniv, Finset.sum_empty, h0]

theorem logrankOf_some (sf : SF) (data : List Obs)
    (x : Fin (nGroups data - 1) → ℚ)
    (hx : npSolve (Vred data) (OEred data) = some x) :
    logrankOf sf data
      = (∑ i : Fin (nGroups data - 1), OEred data i * x i,
         sf (∑ i : Fin (nGroups data - 1), OEred data i * x i)
           (nGroups data - 1)) := by
  rw [logrankOf, hx]

theorem logrankOf_relabel (sf : SF) (data : List Obs) (π : ℚ → ℚ)
    (hπ : Function.Injective π) :
    logrankOf sf (data.map (relabelObs π)) = logrankOf sf data := by
  have hklen : nGroups (data.map (relabelObs π)) = nGroups data := by
    rw [nGroups, nGroups, groupLabels_relabel_length π hπ]
  by_cases hk : nGroups data ≤ 1
  · rw [logrankOf_small sf _ (by omega), logrankOf_small sf data hk]
  · push_neg at hk
    have h2 : 2 ≤ nGroups data := hk
    have h2' : 2 ≤ nGroups (data.map (relabelObs π)) := by omega
    have hLne : groupLabels data ≠ [] := groupLabels_ne_nil h2
    have hLne' : groupLabels (data.map (relabelObs π)) ≠ [] :=
      groupLabels_ne_nil h2'
    have hS' : (groupLabels (data.map (relabelObs π))).toFinset
        = (groupLabels data).toFinset.image π :=
      groupLabels_relabel_toFinset π data
    have hlast'mem : (groupLabels (data.map (relabelObs π))).getLastD 0
        ∈ (groupLabels data).toFinset.image π := by
      rw [← hS']
      exact getLastD_mem_toFinset _ hLne'
    obtain ⟨d₀, hd₀, hπd₀⟩ := Finset.mem_image.mp hlast'mem
    have hW : ∀ a ∈ (groupLabels data).toFinset,
        ∀ b ∈ (groupLabels data).toFinset,
        vEntry (data.map (relabelObs π)) (π a) (π b) = vEntry data a b :=
      fun a _ b _ => vEntry_relabel π hπ data a b
    have hrow : ∀ a ∈ (groupLabels data).toFinset,
        ∑ b ∈ (groupLabels data).toFinset, vEntry data a b = 0 :=
      fun a ha => vEntry_row_sum data a ha
    have hlastmem : (groupLabels data).getLastD 0 ∈ (groupLabels data).toFinset :=
      getLastD_mem_toFinset _ hLne
    have hsing : (Vred (data.map (relabelObs π))).det = 0
        ↔ (Vred data).det = 0 := by
      rw [vred_singular_iff _ h2', vred_singular_iff data h2, hS', ← hπd₀,
        kernel_transport (groupLabels data).toFinset (vEntry data)
          (vEntry (data.map (relabelObs π))) π hπ hW d₀ hd₀]
      constructor
      · rintro ⟨w, hw0, hwne, hker⟩
        exact kernel_shift _ _ hrow d₀ _ hd₀ hlastmem w hw0 hwne hker
      · rintro ⟨w, hw0, hwne, hker⟩
        exact kernel_shift _ _ hrow _ d₀ hlastmem hd₀ w hw0 hwne hker
    by_cases hdet : (Vred data).det = 0
    · have hdet' : (Vred (data.map (relabelObs π))).det = 0 := hsing.mpr hdet
      have e1 : npSolve (Vred data) (OEred data) = none := by
        rw [npSolve, if_pos hdet]
      have e2 : npSolve (Vred (data.map (relabelObs π)))
          (OEred (data.map (relabelObs π))) = none := by
        rw [npSolve, if_pos hdet']
      rw [logrankOf, logrankOf, e1, e2]
    · have hdet' : ¬(Vred (data.map (relabelObs π))).det = 0 :=
        fun h => hdet (hsing.mp h)
      obtain ⟨x, hx⟩ : ∃ x, npSolve (Vred data) (OEred data) = some x := by
        rw [npSolve, if_neg hdet]
        exact ⟨_, rfl⟩
      obtain ⟨x', hx'⟩ : ∃ x', npSolve (Vred (data.map (relabelObs π)))
          (OEred (data.map (relabelObs π))) = some x' := by
        rw [npSolve, if_neg hdet']
        exact ⟨_, rfl⟩
      rw [logrankOf_some sf data x hx, logrankOf_some sf _ x' hx']
      obtain ⟨hmv, _⟩ := npSolve_sound _ _ x hx
      obtain ⟨hmv', _⟩ := npSolve_sound _ _ x' hx'
      obtain ⟨z, hzrows, hzstat⟩ := vred_solution_extend data h2 x hmv
      obtain ⟨z', hzrows', hzstat'⟩ := vred_solution_extend _ h2' x' hmv'
      have hinj2 : ∀ p ∈ (groupLabels data).toFinset,
          ∀ q ∈ (groupLabels data).toFinset, π p = π q → p = q :=
        fun p _ q _ h => hπ h
      have hz2rows : ∀ a ∈ (groupLabels data).toFinset,
          ∑ b ∈ (groupLabels data).toFinset, vEntry data a b * z' (π b)
            = oMinusE data a := by
        intro a ha
        have h1 := hzrows' (π a) (by
          rw [hS']
          exact Finset.mem_image_of_mem π ha)
        rw [hS', Finset.sum_image hinj2] at h1
        calc ∑ b ∈ (groupLabels data).toFinset, vEntry data a b * z' (π b)
            = ∑ b ∈ (groupLabels data).toFinset,
                vEntry (data.map (relabelObs π)) (π a) (π b) * z' (π b) :=
              Finset.sum_congr rfl (fun b hb => by rw [hW a ha b hb])
          _ = oMinusE (data.map (relabelObs π)) (π a) := h1
          _ = oMinusE data a := oMinusE_relabel π hπ data a
      have hstat_eq : ∑ g ∈ (groupLabels (data.map (relabelObs π))).toFinset,
          oMinusE (data.map (relabelObs π)) g * z' g
          = ∑ g ∈ (groupLabels data).toFinset, oMinusE data g * z' (π g) := by
        rw [hS', Finset.sum_image hinj2]
        exact Finset.sum_congr rfl (fun g _ => by rw [oMinusE_relabel π hπ])
      have huniq : ∑ g ∈ (groupLabels data).toFinset, oMinusE data g * z g
          = ∑ g ∈ (groupLabels data).toFinset, oMinusE data g * z' (π g) :=
        logrank_stat_unique (groupLabels data).toFinset (vEntry data)
          (oMinusE data) (vEntry_symm data) z (fun g => z' (π g)) hzrows hz2rows
      have hchi : ∑ i : Fin (nGroups (data.map (relabelObs π)) - 1),
          OEred (data.map (relabelObs π)) i * x' i
          = ∑ i : Fin (nGroups data - 1), OEred data i * x i := by
        rw [hzstat', hstat_eq, hzstat]
        exact huniq.symm
      rw [hchi, hklen]

/-- C8: for every input (with the three arrays of equal length, so that the
observation triples are well-formed), `calculate_logrank` returns the same
chi-square statistic and p-value after reversing the order of the
observation triples and after any injective relabelling `π` of the group
identifiers. -/
theorem calculate_logrank_invariance (sf : SF)
    (durations events groups : List ℚ) (π : ℚ → ℚ)
    (hπ : Function.Injective π)
    (h1 : durations.length = events.length)
    (h2 : events.length = groups.length) :
    calculate_logrank sf durations.reverse events.reverse groups.reverse
        = calculate_logrank sf durations events groups
      ∧ calculate_logrank sf durations events (groups.map π)
        = calculate_logrank sf durations events groups := by
  constructor
  · rw [calculate_logrank, calculate_logrank,
      logrankObs_reverse durations events groups h1 h2]
    exact logrankOf_perm sf (List.reverse_perm _)
  · rw [calculate_logrank, calculate_logrank, logrankObs_map_groups]
    exact logrankOf_relabel sf _ π hπ

/-- Closed witness for `calculate_logrank_invariance`: the two-group input
`durations=[1,2], events=[1,1], groups=[0,1]` with the injective
relabelling `π = (· + 1)`. -/
theorem calculate_logrank_invariance_witness :
    Function.Injective (fun q : ℚ => q + 1)
    ∧ ([(1 : ℚ), 2]).length = ([(1 : ℚ), 1]).length
    ∧ ([(1 : ℚ), 1]).length = ([(0 : ℚ), 1]).length
    ∧ (calculate_logrank sfW ([(1 : ℚ), 2]).reverse ([(1 : ℚ), 1]).reverse
          ([(0 : ℚ), 1]).reverse
        = calculate_logrank sfW [(1 : ℚ), 2] [(1 : ℚ), 1] [(0 : ℚ), 1]
      ∧ calculate_logrank sfW [(1 : ℚ), 2] [(1 : ℚ), 1]
          (([(0 : ℚ), 1]).map (fun q : ℚ => q + 1))
        = calculate_logrank sfW [(1 : ℚ), 2] [(1 : ℚ), 1] [(0 : ℚ), 1]) :=
  ⟨fun a b h => by simpa using h, rfl, rfl,
    calculate_logrank_invariance sfW [(1 : ℚ), 2] [(1 : ℚ), 1] [(0 : ℚ), 1]
      (fun q : ℚ => q + 1) (fun a b h => by simpa using h) rfl rfl⟩
